import Mathlib

/-!
Verification of the in-memory hierarchical file store: linked-list stacks,
per-directory binary search tree of files, global B-tree index, snapshot
codec and path walking.  Each module of the source is embedded shallowly:
pure functions become Lean functions, object mutation becomes explicit
state passing, and Python exceptions become `Except` values.
-/

open scoped List

namespace Cadenas

/-- Python `str.lower()`: character-wise lowercasing over the string's
character list. -/
def minusculas (s : String) : String := ⟨s.data.map Char.toLower⟩

/-- Lexicographic code-point comparison of character lists: Python's `<`
on strings. -/
def ltChars : List Char → List Char → Bool
  | [], [] => false
  | [], _ :: _ => true
  | _ :: _, [] => false
  | c :: cs, d :: ds => decide (c < d) || (c == d && ltChars cs ds)

/-- Python `<` on strings. -/
def ltStr (a b : String) : Bool := ltChars a.data b.data

/-- Python `str.startswith`. -/
def esPrefijo : List Char → List Char → Bool
  | [], _ => true
  | _ :: _, [] => false
  | c :: cs, d :: ds => c == d && esPrefijo cs ds

def empiezaCon (s pref : String) : Bool := esPrefijo pref.data s.data

/-- The whitespace stripped by Python `str.strip()`. -/
def esEspacio (c : Char) : Bool := c == ' ' || c == '\t' || c == '\n' || c == '\r'

/-- Python `str.strip()`: outer whitespace removed on both sides. -/
def recortar (s : String) : String :=
  ⟨((s.data.dropWhile esEspacio).reverse.dropWhile esEspacio).reverse⟩

/-- Python `ruta.replace("\\", "/")` (the pattern is a single character). -/
def barrasNormales (s : String) : String :=
  ⟨s.data.map (fun c => if c = '\\' then '/' else c)⟩

/-- Python `c in s` for a single character. -/
def contiene (s : String) (c : Char) : Bool := s.data.contains c

/-- Python `s.rstrip(":")`: all trailing colons removed. -/
def sinDosPuntosFinales (s : String) : String :=
  ⟨(s.data.reverse.dropWhile (fun c => c == ':')).reverse⟩

/-- Python `nombre.split(".")[-1]`: the segment after the last dot (the
whole string when no dot occurs). -/
def ultimoSegmento (s : String) : String :=
  ⟨(s.data.reverse.takeWhile (fun c => !(c == '.'))).reverse⟩

end Cadenas

namespace EstructurasDatos

/-- Stack from `estructuras_datos.Pila`: the linked list `cabeza → …` is
represented by a `List`, head of the list being the top of the stack;
`longitud` is the list length. -/
def apilar (pila : List α) (valor : α) : List α := valor :: pila

/-- `Pila.desapilar`: returns `None` on an empty stack, otherwise the top
value, removing it. -/
def desapilar : List α → Option α × List α
  | [] => (none, [])
  | valor :: resto => (some valor, resto)

/-- `Pila.ver_tope`: the top value, or `None` on an empty stack. -/
def ver_tope : List α → Option α
  | [] => none
  | valor :: _ => some valor

end EstructurasDatos

namespace EntidadesFS

/-- `entidades_fs.Archivo`: a text file leaf with content, timestamps and a
derived extension. -/
structure Archivo where
  nombre : String
  contenido : String
  fecha_creacion : String
  fecha_modificacion : String
  extension : String
deriving DecidableEq, Repr

/-- `Archivo._obtener_extension`: the part after the last `.`, empty when
the name has no dot. -/
def obtener_extension (nombre : String) : String :=
  if Cadenas.contiene nombre '.' then Cadenas.ultimoSegmento nombre else ""

/-- The `Archivo` constructor: stores content, derives the extension and
stamps both dates with the current clock `now`. -/
def Archivo.nuevo (nombre contenido now : String) : Archivo :=
  ⟨nombre, contenido, now, now, obtener_extension nombre⟩

/-- Binary search tree of `NodoArchivoBinario` nodes ordered by lowercase
name; `hoja` stands for an absent child (`None`). -/
inductive NodoArchivo where
  | hoja
  | nodo (izq : NodoArchivo) (archivo : Archivo) (der : NodoArchivo)
deriving DecidableEq, Repr

/-- `Carpeta.agregar_archivo` / `Carpeta._insertar_archivo`: BST insert by
lowercase name, returning whether the file was inserted (`False` on a
duplicate key) and the updated tree. -/
def insertar_archivo : NodoArchivo → Archivo → Bool × NodoArchivo
  | .hoja, archivo => (true, .nodo .hoja archivo .hoja)
  | .nodo izq a der, archivo =>
    if Cadenas.minusculas archivo.nombre = Cadenas.minusculas a.nombre then (false, .nodo izq a der)
    else if Cadenas.ltStr (Cadenas.minusculas archivo.nombre) (Cadenas.minusculas a.nombre) then
      let r := insertar_archivo izq archivo
      (r.1, .nodo r.2 a der)
    else
      let r := insertar_archivo der archivo
      (r.1, .nodo izq a r.2)

/-- `Carpeta._min_nodo`: the leftmost file of a non-empty subtree. -/
def min_nodo : NodoArchivo → Option Archivo
  | .hoja => none
  | .nodo izq a _ => some ((min_nodo izq).getD a)

/-- `Carpeta._eliminar_archivo`: BST delete by (already lowercased) name;
when both children are present the node's payload is replaced by its
in-order successor, which is then deleted from the right subtree. -/
def eliminar_archivo_nodo : NodoArchivo → String → Bool × NodoArchivo
  | .hoja, _ => (false, .hoja)
  | .nodo izq a der, nombre_lower =>
    if Cadenas.ltStr nombre_lower (Cadenas.minusculas a.nombre) then
      let r := eliminar_archivo_nodo izq nombre_lower
      (r.1, .nodo r.2 a der)
    else if Cadenas.ltStr (Cadenas.minusculas a.nombre) nombre_lower then
      let r := eliminar_archivo_nodo der nombre_lower
      (r.1, .nodo izq a r.2)
    else if izq = .hoja then (true, der)
    else if der = .hoja then (true, izq)
    else
      let sucesor := (min_nodo der).getD a
      let r := eliminar_archivo_nodo der (Cadenas.minusculas sucesor.nombre)
      (true, .nodo izq sucesor r.2)

/-- `Carpeta.eliminar_archivo`: lowercases the target name and delegates. -/
def eliminar_archivo (t : NodoArchivo) (nombre : String) : Bool × NodoArchivo :=
  eliminar_archivo_nodo t (Cadenas.minusculas nombre)

/-- `Carpeta._recorrer_archivos` / `Carpeta.archivos_en_orden`: traversal
in the order selected by the `orden` string. -/
def recorrer_archivos : NodoArchivo → String → List Archivo
  | .hoja, _ => []
  | .nodo izq a der, orden =>
    (if orden = "preorden" then [a] else []) ++
    recorrer_archivos izq orden ++
    (if orden = "inorden" then [a] else []) ++
    recorrer_archivos der orden ++
    (if orden = "postorden" then [a] else [])

/-- The in-order sequence of lowercase keys of the tree. -/
def claves : NodoArchivo → List String
  | .hoja => []
  | .nodo izq a der => claves izq ++ Cadenas.minusculas a.nombre :: claves der

/-- A predicate holding of every lowercase key of the tree. -/
inductive ForallClaves (p : String → Prop) : NodoArchivo → Prop
  | hoja : ForallClaves p .hoja
  | nodo {izq : NodoArchivo} {a : Archivo} {der : NodoArchivo} :
      ForallClaves p izq → p (Cadenas.minusculas a.nombre) → ForallClaves p der →
      ForallClaves p (.nodo izq a der)

/-- The search-tree invariant on lowercase keys. -/
inductive BST : NodoArchivo → Prop
  | hoja : BST .hoja
  | nodo {a : Archivo} {izq der : NodoArchivo} :
      ForallClaves (fun k => k < Cadenas.minusculas a.nombre) izq →
      ForallClaves (fun k => Cadenas.minusculas a.nombre < k) der →
      BST izq → BST der → BST (.nodo izq a der)

/-- One step of the per-directory file API: an `agregar_archivo` or an
`eliminar_archivo` call. -/
inductive Operacion where
  | agregar (archivo : Archivo)
  | eliminar (nombre : String)

def aplicar (t : NodoArchivo) : Operacion → NodoArchivo
  | .agregar archivo => (insertar_archivo t archivo).2
  | .eliminar nombre => (eliminar_archivo t nombre).2

/-- The directory's file BST after a sequence of operations, starting from
the empty tree (`archivos_raiz = None`). -/
def aplicar_todas (ops : List Operacion) : NodoArchivo := ops.foldl aplicar .hoja

end EntidadesFS

namespace IndiceGlobal

/-- `IndiceGlobalArchivos.calcular_tamano_kb`: size 0 for absent content,
otherwise the ceiling of the UTF-8 byte length divided by 1024, clamped to
at least 1.  (`math.ceil(b / 1024)` for the nonnegative integer `b` is
`(b + 1023) / 1024` in natural division.) -/
def calcular_tamano_kb : Option String → Nat
  | none => 0
  | some contenido => max 1 ((contenido.utf8ByteSize + 1023) / 1024)

/-- `indice_global.ArchivoIndexEntry`: one index record. -/
structure ArchivoIndexEntry where
  nombre : String
  ruta_completa : String
  tamano_kb : Int
  fecha_creacion : String
  fecha_modificacion : String
  extension : String
deriving DecidableEq, Repr

/-- `indice_global.BTreeNode`: keys, per-key entry lists, children, and the
`es_hoja` flag mirroring the Python attribute. -/
inductive BTreeNode where
  | mk (es_hoja : Bool) (claves : List String)
      (valores : List (List ArchivoIndexEntry)) (hijos : List BTreeNode)

mutual

/-- Number of nodes of the tree; bounds the recursion depth of every
B-tree walk and serves as the fuel of the fuel-indexed functions. -/
def medida : BTreeNode → Nat
  | .mk _ _ _ hs => 1 + medidaLista hs

def medidaLista : List BTreeNode → Nat
  | [] => 0
  | h :: hs => medida h + medidaLista hs

end

def BTreeNode.es_hoja : BTreeNode → Bool
  | .mk h _ _ _ => h

def BTreeNode.claves : BTreeNode → List String
  | .mk _ cs _ _ => cs

def BTreeNode.valores : BTreeNode → List (List ArchivoIndexEntry)
  | .mk _ _ vs _ => vs

def BTreeNode.hijos : BTreeNode → List BTreeNode
  | .mk _ _ _ hs => hs

/-- A fresh node, as built by `BTreeNode(grado)` (leaf, no keys). -/
def nodoNuevo : BTreeNode := .mk true [] [] []

/-- Stopping index of the left-to-right scan
`while i < len(claves) and clave > claves[i]` in `BTree._buscar`. -/
def posBusqueda (claves : List String) (clave : String) : Nat :=
  (claves.takeWhile (fun c => Cadenas.ltStr c clave)).length

/-- Index `i+1` where the right-to-left scan
`while i >= 0 and clave < claves[i]` of `BTree._insertar_no_lleno` stops. -/
def posInsercion (claves : List String) (clave : String) : Nat :=
  claves.length - (claves.reverse.takeWhile (fun c => Cadenas.ltStr clave c)).length

/-- `BTree._buscar`, indexed by fuel (the wrapper passes the tree size,
which bounds the recursion depth). -/
def buscarNodo : Nat → BTreeNode → String → List ArchivoIndexEntry
  | 0, _, _ => []
  | fuel+1, .mk h cs vs hs, clave =>
    let i := posBusqueda cs clave
    if i < cs.length ∧ cs.getD i "" = clave then vs.getD i []
    else if h then []
    else buscarNodo fuel (hs.getD i nodoNuevo) clave

/-- `BTree.buscar_exacta`: lowercases the key and searches from the root. -/
def buscar_exacta (raiz : BTreeNode) (clave : String) : List ArchivoIndexEntry :=
  buscarNodo (medida raiz) raiz (Cadenas.minusculas clave)

/-- `BTree._dividir_hijo`: splits the full child `padre.hijos[indice]`,
keeping its first `t-1` keys, moving the median key/value up into `padre`
and the upper `t-1` keys into a new right sibling. -/
def dividir_hijo (t : Nat) (padre : BTreeNode) (indice : Nat) : BTreeNode :=
  let hijo := padre.hijos.getD indice nodoNuevo
  let clave_mediana := hijo.claves.getD (t-1) ""
  let valor_mediano := hijo.valores.getD (t-1) []
  let nuevo : BTreeNode := .mk hijo.es_hoja (hijo.claves.drop t) (hijo.valores.drop t)
    (if hijo.es_hoja then [] else hijo.hijos.drop t)
  let hijoRec : BTreeNode := .mk hijo.es_hoja (hijo.claves.take (t-1)) (hijo.valores.take (t-1))
    (if hijo.es_hoja then hijo.hijos else hijo.hijos.take t)
  .mk padre.es_hoja (padre.claves.insertIdx indice clave_mediana)
    (padre.valores.insertIdx indice valor_mediano)
    ((padre.hijos.set indice hijoRec).insertIdx (indice+1) nuevo)

/-- `BTree._insertar_no_lleno`, indexed by fuel: on a leaf, append to the
existing entry list when the scan lands on an equal key, otherwise insert
key and singleton list; on an internal node, split a full child and
descend. -/
def insertar_no_lleno (t : Nat) : Nat → BTreeNode → String → ArchivoIndexEntry → BTreeNode
  | 0, nodo, _, _ => nodo
  | fuel+1, .mk true cs vs hs, clave, entrada =>
    let i := posInsercion cs clave
    if 0 < i ∧ cs.getD (i-1) "" = clave then
      .mk true cs (vs.set (i-1) (vs.getD (i-1) [] ++ [entrada])) hs
    else
      .mk true (cs.insertIdx i clave) (vs.insertIdx i [entrada]) hs
  | fuel+1, .mk false cs vs hs, clave, entrada =>
    let i := posInsercion cs clave
    let hijo := hs.getD i nodoNuevo
    if hijo.claves.length = 2*t - 1 then
      let padre := dividir_hijo t (.mk false cs vs hs) i
      let j := if Cadenas.ltStr (padre.claves.getD i "") clave then i+1 else i
      .mk padre.es_hoja padre.claves padre.valores
        (padre.hijos.set j (insertar_no_lleno t fuel (padre.hijos.getD j nodoNuevo) clave entrada))
    else
      .mk false cs vs (hs.set i (insertar_no_lleno t fuel hijo clave entrada))

/-- `BTree.insertar`: lowercases the key, proactively splits a full root,
then inserts into the non-full root. -/
def insertar (t : Nat) (raiz : BTreeNode) (clave0 : String)
    (entrada : ArchivoIndexEntry) : BTreeNode :=
  let clave := Cadenas.minusculas clave0
  if raiz.claves.length = 2*t - 1 then
    let nueva_raiz := dividir_hijo t (.mk false [] [] [raiz]) 0
    insertar_no_lleno t (medida nueva_raiz) nueva_raiz clave entrada
  else
    insertar_no_lleno t (medida raiz) raiz clave entrada

/-- The child-by-child walk of `BTree._recorrer` on an internal node: one
child per value list, then the last child (`hijos[-1]`). -/
def recorreHijos (rec : BTreeNode → List ArchivoIndexEntry) :
    List (List ArchivoIndexEntry) → List BTreeNode → List ArchivoIndexEntry
  | v :: vs, h :: hs => rec h ++ v ++ recorreHijos rec vs hs
  | _ :: _, [] => []
  | [], hs =>
    match hs.getLast? with
    | some h => rec h
    | none => []

/-- `BTree._recorrer`, indexed by fuel: a leaf concatenates its value
lists; an internal node interleaves child traversals with value lists. -/
def recorrerNodo : Nat → BTreeNode → List ArchivoIndexEntry
  | 0, _ => []
  | fuel+1, .mk true _ vs _ => vs.flatten
  | fuel+1, .mk false _ vs hs => recorreHijos (recorrerNodo fuel) vs hs

/-- `BTree.recorrer` from the root. -/
def recorrer (raiz : BTreeNode) : List ArchivoIndexEntry :=
  recorrerNodo (medida raiz) raiz

/-- Number of occurrences of a key among all key lists of the tree. -/
def contarClaveNodo : Nat → BTreeNode → String → Nat
  | 0, _, _ => 0
  | fuel+1, .mk _ cs _ hs, clave =>
    cs.count clave + (hs.map (fun h => contarClaveNodo fuel h clave)).sum

def contarClave (raiz : BTreeNode) (clave : String) : Nat :=
  contarClaveNodo (medida raiz) raiz clave

/-- `IndiceGlobalArchivos._normalizar_ruta`: backslashes to slashes, outer
whitespace stripped. -/
def normalizar_ruta (ruta : String) : String := Cadenas.recortar (Cadenas.barrasNormales ruta)

/-- `IndiceGlobalArchivos._reconstruir_desde_lista` (also `deserializar`):
start from a fresh tree and reinsert every entry keyed by its lowercase
name; the facade uses the default minimum degree 2. -/
def reconstruir_desde_lista (entradas : List ArchivoIndexEntry) : BTreeNode :=
  entradas.foldl (fun raiz e => insertar 2 raiz e.nombre e) nodoNuevo

/-- `IndiceGlobalArchivos.eliminar_por_ruta`: filter out the entries whose
normalized path equals the target and rebuild, reporting whether any
entry matched. -/
def eliminar_por_ruta (raiz : BTreeNode) (ruta_completa : String) : Bool × BTreeNode :=
  let ruta_norm := normalizar_ruta ruta_completa
  let restantes := (recorrer raiz).filter
    (fun e => !(normalizar_ruta e.ruta_completa == ruta_norm))
  if restantes.length = (recorrer raiz).length then (false, raiz)
  else (true, reconstruir_desde_lista restantes)

/-- `IndiceGlobalArchivos.eliminar_por_prefijo`: filter out the entries
whose normalized path starts with the normalized target and rebuild when
anything was removed, returning the count removed. -/
def eliminar_por_prefijo (raiz : BTreeNode) (prefijo : String) : Nat × BTreeNode :=
  let pref := normalizar_ruta prefijo
  let entradas := recorrer raiz
  let restantes := entradas.filter
    (fun e => !(Cadenas.empiezaCon (normalizar_ruta e.ruta_completa) pref))
  let eliminados := entradas.length - restantes.length
  if 0 < eliminados then (eliminados, reconstruir_desde_lista restantes)
  else (eliminados, raiz)

/-- Shape well-formedness maintained by the B-tree code: keys and value
lists run in parallel, and an internal node has one more child than keys. -/
inductive BF : BTreeNode → Prop where
  | hoja {cs : List String} {vs : List (List ArchivoIndexEntry)}
      (h : vs.length = cs.length) : BF (.mk true cs vs [])
  | interno {cs : List String} {vs : List (List ArchivoIndexEntry)} {hs : List BTreeNode}
      (h1 : vs.length = cs.length) (h2 : hs.length = cs.length + 1)
      (h3 : ∀ c ∈ hs, BF c) : BF (.mk false cs vs hs)

/-- Concrete index entries used to instantiate the deletion theorems. -/
def entradaDemo1 : ArchivoIndexEntry :=
  ⟨"x.txt", "c:/docs/x.txt", 1, "2024-01-01", "2024-01-02", "txt"⟩

def entradaDemo2 : ArchivoIndexEntry :=
  ⟨"y.txt", "c:/otros/y.txt", 1, "2024-01-01", "2024-01-02", "txt"⟩

end IndiceGlobal

namespace Respaldos

/-- `entidades_fs.Carpeta` as used by the snapshot codec: name,
timestamps, ordered subdirectory list and the per-folder BST of files
(the derivable parent link is omitted). -/
inductive CarpetaE where
  | mk (nombre : String) (fecha_creacion : String) (fecha_modificacion : String)
      (subcarpetas : List CarpetaE) (archivos_raiz : EntidadesFS.NodoArchivo)

def CarpetaE.nombre : CarpetaE → String
  | .mk n _ _ _ _ => n

def CarpetaE.fecha_creacion : CarpetaE → String
  | .mk _ fc _ _ _ => fc

def CarpetaE.fecha_modificacion : CarpetaE → String
  | .mk _ _ fm _ _ => fm

def CarpetaE.subcarpetas : CarpetaE → List CarpetaE
  | .mk _ _ _ subs _ => subs

def CarpetaE.archivos_raiz : CarpetaE → EntidadesFS.NodoArchivo
  | .mk _ _ _ _ root => root

/-- One file entry of the serialized document, with the exact fields
written by `GestorRespaldos._serializar_carpeta`. -/
structure ArchivoDatos where
  nombre : String
  contenido : String
  fecha_creacion : String
  fecha_modificacion : String
  extension : String
deriving DecidableEq, Repr

/-- One directory node of the serialized document. -/
inductive CarpetaDatos where
  | mk (nombre : String) (fecha_creacion : String) (fecha_modificacion : String)
      (subcarpetas : List CarpetaDatos) (archivos : List ArchivoDatos)

def archivoADatos (a : EntidadesFS.Archivo) : ArchivoDatos :=
  ⟨a.nombre, a.contenido, a.fecha_creacion, a.fecha_modificacion, a.extension⟩

mutual

/-- `GestorRespaldos._serializar_carpeta`: name and timestamps, the
serialized subdirectories in order, and the files from a pre-order BST
traversal. -/
def serializar_carpeta : CarpetaE → CarpetaDatos
  | .mk n fc fm subs root =>
    .mk n fc fm (serializar_subcarpetas subs)
      ((EntidadesFS.recorrer_archivos root "preorden").map archivoADatos)

def serializar_subcarpetas : List CarpetaE → List CarpetaDatos
  | [] => []
  | c :: cs => serializar_carpeta c :: serializar_subcarpetas cs

end

/-- `Carpeta.agregar_carpeta`: append the subdirectory and stamp
`fecha_modificacion` with the current clock (`actualizar_modificacion`). -/
def agregar_carpeta (now : String) (c : CarpetaE) (sub : CarpetaE) : CarpetaE :=
  match c with
  | .mk n fc _ subs root => .mk n fc now (subs ++ [sub]) root

/-- `Carpeta.agregar_archivo`: BST insert; on success the folder's
`fecha_modificacion` is stamped with the current clock. -/
def agregar_archivo (now : String) (c : CarpetaE) (a : EntidadesFS.Archivo) :
    CarpetaE × Bool :=
  match c with
  | .mk n fc fm subs root =>
    let r := EntidadesFS.insertar_archivo root a
    (.mk n fc (if r.1 then now else fm) subs r.2, r.1)

/-- The file rebuilt by `_deserializar_carpeta`: `Archivo(nombre,
contenido)` whose timestamps and extension are then overwritten from the
document. -/
def archivoDeDatos (d : ArchivoDatos) : EntidadesFS.Archivo :=
  ⟨d.nombre, d.contenido, d.fecha_creacion, d.fecha_modificacion, d.extension⟩

def agregar_subcarpetas (now : String) : CarpetaE → List CarpetaE → CarpetaE
  | c, [] => c
  | c, s :: ss => agregar_subcarpetas now (agregar_carpeta now c s) ss

def agregar_archivos (now : String) : CarpetaE → List ArchivoDatos → CarpetaE
  | c, [] => c
  | c, d :: ds => agregar_archivos now (agregar_archivo now c (archivoDeDatos d)).1 ds

mutual

/-- `GestorRespaldos._deserializar_carpeta`: build the folder, overwrite
its timestamps from the document, then re-add each deserialized
subdirectory with `agregar_carpeta` and each file with `agregar_archivo`
(both of which stamp `fecha_modificacion` with the current clock). -/
def deserializar_carpeta (now : String) : CarpetaDatos → CarpetaE
  | .mk n fc fm subdatos archdatos =>
    agregar_archivos now
      (agregar_subcarpetas now (.mk n fc fm [] .hoja)
        (deserializar_subcarpetas now subdatos))
      archdatos

def deserializar_subcarpetas (now : String) : List CarpetaDatos → List CarpetaE
  | [] => []
  | d :: ds => deserializar_carpeta now d :: deserializar_subcarpetas now ds

end

/-- `GestorRespaldos._serializar_pila`, first loop: pop everything,
collecting the elements top-first and pushing them onto the temporary
stack. -/
def serializar_pila_aux : List String → List String → List String →
    List String × List String
  | [], elementos, temp => (elementos, temp)
  | e :: resto, elementos, temp =>
    serializar_pila_aux resto (elementos ++ [e]) (EstructurasDatos.apilar temp e)

/-- `_serializar_pila`, second loop: pop the temporary stack back onto the
original one. -/
def restaurar : List String → List String → List String
  | [], pila => pila
  | e :: resto, pila => restaurar resto (EstructurasDatos.apilar pila e)

/-- `GestorRespaldos._serializar_pila`: the serialized element list
(top-first) together with the restored stack. -/
def serializar_pila (pila : List String) : List String × List String :=
  let r := serializar_pila_aux pila [] []
  (r.1, restaurar r.2 [])

/-- `GestorRespaldos._deserializar_pila`: push the listed elements in
reverse so the first listed element ends on top. -/
def deserializar_pila (lista : List String) : List String :=
  lista.reverse.foldl (fun p e => EstructurasDatos.apilar p e) []

/-- A directory with one (empty) subdirectory and one file, as it could
exist before a snapshot is taken. -/
def carpetaDemo : CarpetaE :=
  .mk "docs" "2020-01-01 00:00:00" "2020-06-01 12:00:00"
    [.mk "sub" "2020-02-02 00:00:00" "2020-03-03 00:00:00" [] .hoja]
    (.nodo .hoja ⟨"a.txt", "hola", "2020-01-05 00:00:00", "2020-01-06 00:00:00", "txt"⟩ .hoja)

def nowDemo : String := "2024-05-05 09:00:00"

end Respaldos

namespace IndiceGlobal

/-- The global-index tree after inserting keys a, b, c, d and then b again
(minimum degree 2): inserting d splits the root and moves the key b into
the internal root, so the fifth insertion walks past it into a leaf. -/
def arbolDemo : BTreeNode :=
  insertar 2 (insertar 2 (insertar 2 (insertar 2 (insertar 2 nodoNuevo
    "a" ⟨"a", "r1", 1, "", "", ""⟩)
    "b" ⟨"b", "r2", 1, "", "", ""⟩)
    "c" ⟨"c", "r3", 1, "", "", ""⟩)
    "d" ⟨"d", "r4", 1, "", "", ""⟩)
    "b" ⟨"b", "r5", 1, "", "", ""⟩

end IndiceGlobal

namespace Cadenas

/-- Python `str.split(sep)` for a one-character separator: splits on every
occurrence, keeping empty segments. -/
def separarChars (sep : Char) : List Char → List (List Char)
  | [] => [[]]
  | c :: cs =>
    let r := separarChars sep cs
    if c = sep then [] :: r
    else
      match r with
      | [] => [[c]]
      | g :: gs => (c :: g) :: gs

def separar (s : String) (sep : Char) : List String :=
  (separarChars sep s.data).map (fun l => ⟨l⟩)

/-- Python `sep.join(partes)` for a one-character separator. -/
def unir : List String → Char → String
  | [], _ => ""
  | [s], _ => s
  | s :: resto, sep => s ++ ⟨[sep]⟩ ++ unir resto sep

/-- Python `s.endswith(c)` for a one-character suffix. -/
def terminaCon (s : String) (c : Char) : Bool :=
  match s.data.getLast? with
  | some d => d == c
  | none => false

end Cadenas

namespace Comandos

/-- Modelled from the spec: the old-generation directory element the
commands iterate through `directorio_actual.contenido` (its class is not
in `src/`): a child is either a folder with a name, a modification date
and its own ordered children, or a file with a name. -/
inductive ElemV where
  | carpetaV (nombre : String) (fecha_modificacion : String) (contenido : List ElemV)
  | archivoV (nombre : String)

def ElemV.nombre : ElemV → String
  | .carpetaV n _ _ => n
  | .archivoV n => n

def ElemV.esCarpeta : ElemV → Bool
  | .carpetaV _ _ _ => true
  | .archivoV _ => false

def ElemV.contenido : ElemV → List ElemV
  | .carpetaV _ _ cont => cont
  | .archivoV _ => []

/-- The characters rejected by `ComandoMKDIR._validar_nombre`. -/
def caracteresInvalidos : List Char := ['/', '\\', ':', '*', '?', '"', '<', '>', '|']

/-- `ComandoMKDIR._validar_nombre`: no invalid character occurs and the
name is nonempty once stripped. -/
def validar_nombre (nombre : String) : Bool :=
  caracteresInvalidos.all (fun c => !(Cadenas.contiene nombre c)) &&
  !(Cadenas.recortar nombre == "")

/-- Modelled from the spec: `add_subdirectory` alias the old-generation
`Carpeta.agregar_elemento` (not in `src/`): append the child to the
parent's content and update the parent's modification date. -/
def agregar_elemento (now : String) (contenido : List ElemV) (_fm : String)
    (elemento : ElemV) : List ElemV × String :=
  (contenido ++ [elemento], now)

/-- The observable outcome of `ComandoMKDIR._crear_directorio_actual`. -/
inductive ResultadoMKDIR where
  | nombreInvalido
  | conflicto (existente : String)
  | creado
deriving DecidableEq, Repr

/-- `ComandoMKDIR._crear_directorio_actual` acting on the current
directory's children and modification date: reject an invalid name;
report a conflict naming the first child of the same case-insensitive
name; otherwise add `Carpeta(nombre)` (dated `now`) through
`agregar_elemento`. -/
def crear_directorio_actual (now : String) (contenido : List ElemV)
    (fm : String) (nombre : String) : ResultadoMKDIR × List ElemV × String :=
  if validar_nombre nombre = false then (.nombreInvalido, contenido, fm)
  else
    match contenido.find? (fun e => Cadenas.minusculas e.nombre == Cadenas.minusculas nombre) with
    | some e => (.conflicto e.nombre, contenido, fm)
    | none =>
      let r := agregar_elemento now contenido fm (.carpetaV nombre now [])
      (.creado, r.1, r.2)

/-- The first subfolder of the given case-insensitive name (skipping
files), as the component lookup of `ComandoCD` does. -/
def buscarSubcarpeta (contenido : List ElemV) (parte : String) : Option ElemV :=
  contenido.find? (fun e => Cadenas.minusculas e.nombre == Cadenas.minusculas parte && e.esCarpeta)

/-- One iteration of the component loop shared by
`ComandoCD._manejar_ruta_absoluta` and `_manejar_ruta_relativa`. The walk
state is the chain of directories from the unit root to the current one
(standing in for the object `padre` pointers) paired with the textual
current path: empty and `.` components are skipped; `..` steps to the
parent when one exists and is skipped at the root; a named component
moves into the matching subfolder or errors. -/
def pasoParte (unidad_raiz : String) (st : List ElemV × String) (parte : String) :
    Except String (List ElemV × String) :=
  if parte == "" || parte == "." then .ok st
  else if parte == ".." then
    if st.1.length ≤ 1 then .ok st
    else
      let cadena2 := st.1.dropLast
      let ruta2 :=
        if cadena2.length = 1 then unidad_raiz
        else
          let partes_ruta := Cadenas.separar st.2 '/'
          if 1 < partes_ruta.length then Cadenas.unir partes_ruta.dropLast '/'
          else unidad_raiz
      .ok (cadena2, ruta2)
  else
    match buscarSubcarpeta ((st.1.getLast?.getD (.archivoV "")).contenido) parte with
    | none => .error ("Error: No se encuentra el directorio: " ++ parte)
    | some sig =>
      let ruta2 :=
        if Cadenas.terminaCon st.2 ':' then st.2 ++ "/" ++ parte
        else if Cadenas.terminaCon st.2 '/' then st.2 ++ parte
        else st.2 ++ "/" ++ parte
      .ok (st.1 ++ [sig], ruta2)

/-- The component loop of `ComandoCD`: process the parts in order,
stopping at the first missing directory. -/
def procesarPartes (unidad_raiz : String) :
    List ElemV × String → List String → Except String (List ElemV × String)
  | st, [] => .ok st
  | st, parte :: resto =>
    match pasoParte unidad_raiz st parte with
    | .error e => .error e
    | .ok st2 => procesarPartes unidad_raiz st2 resto

/-- `ComandoCD._retroceder_directorio`: at the root (`padre is None`)
answer that the root is already current and change nothing; otherwise
step to the parent and drop the last path segment. -/
def retroceder_directorio (unidad_raiz : String) (st : List ElemV × String) :
    String × (List ElemV × String) :=
  if st.1.length ≤ 1 then ("Ya estas en el directorio raiz", st)
  else
    let cadena2 := st.1.dropLast
    let partes := Cadenas.separar st.2 '/'
    let r2 := Cadenas.unir partes.dropLast '/'
    let ruta2 := if r2 == "" then unidad_raiz else r2
    ("Directorio actual: " ++ ruta2, (cadena2, ruta2))

end Comandos

namespace Sistema

/-- A JSON document as `json.load` yields it: the shape of the respaldo
files read by `GestorRespaldos.cargar_ultimo_respaldo`. -/
inductive J where
  | null
  | bool (b : Bool)
  | num (n : Int)
  | str (s : String)
  | arr (elems : List J)
  | obj (campos : List (String × J))

/-- Python `dict.get(k)`: the value under the first occurrence of the key,
or `None`. -/
def campoJ (campos : List (String × J)) (k : String) : Option J :=
  (campos.find? (fun p => p.1 == k)).map (fun p => p.2)

/-- Python truthiness of a JSON value. -/
def esFalsy : J → Bool
  | .null => true
  | .bool b => !b
  | .num n => n == 0
  | .str s => s == ""
  | .arr l => l.isEmpty
  | .obj l => l.isEmpty

/-- `datos.get(k, [])` as consumed by `_deserializar_pila`'s
`reversed(...)` loop: a missing key falls back to the empty list; a
string iterates as its one-character strings and an object as its keys
in order (Python's `reversed` accepts both); only `None`, booleans and
numbers are not reversible, raising the error the caller's `except`
turns into a failed load. -/
def campoLista (campos : List (String × J)) (k : String) : Except Unit (List J) :=
  match campoJ campos k with
  | none => .ok []
  | some (.arr l) => .ok l
  | some (.str s) => .ok (s.data.map (fun c => J.str ⟨[c]⟩))
  | some (.obj l) => .ok (l.map (fun p => J.str p.1))
  | some _ => .error ()

/-- `datos.get(k, d)` where the code then applies string methods to the
value: a non-string value makes those raise, failing the load. -/
def campoStr (campos : List (String × J)) (k : String) (porDefecto : String) :
    Except Unit String :=
  match campoJ campos k with
  | none => .ok porDefecto
  | some (.str s) => .ok s
  | some _ => .error ()

/-- `GestorRespaldos._deserializar_pila`: push the listed elements in
reverse, so the first listed element ends on top of the stack. -/
def deserializar_pila_j (l : List J) : List J :=
  l.reverse.foldl (fun p e => e :: p) []

mutual

/-- Size of a JSON value; bounds the nesting depth for the fuel-indexed
directory parser. -/
def jMedida : J → Nat
  | .arr l => 1 + jMedidaLista l
  | .obj l => 1 + jMedidaCampos l
  | _ => 1

def jMedidaLista : List J → Nat
  | [] => 0
  | j :: js => jMedida j + jMedidaLista js

def jMedidaCampos : List (String × J) → Nat
  | [] => 0
  | (_, j) :: js => jMedida j + jMedidaCampos js

end

/-- One serialized file as read by `_deserializar_carpeta`: string fields
with their `dict.get` defaults (a missing extension falls back to the one
derived from the name, as the `Archivo` constructor computes it). -/
def archivoDeJ (datos : J) : Except Unit Respaldos.ArchivoDatos :=
  match datos with
  | .obj campos => do
    let nombre ← campoStr campos "nombre" ""
    let contenido ← campoStr campos "contenido" ""
    let fc ← campoStr campos "fecha_creacion" ""
    let fm ← campoStr campos "fecha_modificacion" ""
    let ext ← campoStr campos "extension" (EntidadesFS.obtener_extension nombre)
    .ok ⟨nombre, contenido, fc, fm, ext⟩
  | _ => .error ()

def archivosDeJ : List J → Except Unit (List Respaldos.ArchivoDatos)
  | [] => .ok []
  | j :: js => do
    let a ← archivoDeJ j
    let resto ← archivosDeJ js
    .ok (a :: resto)

mutual

/-- The document shape `_deserializar_carpeta` consumes, parsed from JSON
with the `dict.get` defaults of the source; the fuel exceeds the nesting
depth whenever it is at least twice the document size. -/
def carpetaDeJ : Nat → J → Except Unit Respaldos.CarpetaDatos
  | 0, _ => .error ()
  | fuel+1, .obj campos => do
    let nombre ← campoStr campos "nombre" ""
    let fc ← campoStr campos "fecha_creacion" ""
    let fm ← campoStr campos "fecha_modificacion" ""
    let subs ← (match campoJ campos "subcarpetas" with
      | none => Except.ok []
      | some (.arr l) => carpetasDeJ fuel l
      | some _ => Except.error ())
    let archs ← (match campoJ campos "archivos" with
      | none => Except.ok []
      | some (.arr l) => archivosDeJ l
      | some _ => Except.error ())
    .ok (.mk nombre fc fm subs archs)
  | _+1, _ => .error ()

def carpetasDeJ : Nat → List J → Except Unit (List Respaldos.CarpetaDatos)
  | _, [] => .ok []
  | 0, _ :: _ => .error ()
  | fuel+1, j :: js => do
    let c ← carpetaDeJ fuel j
    let resto ← carpetasDeJ fuel js
    .ok (c :: resto)

end

def carpeta_desde_json (j : J) : Except Unit Respaldos.CarpetaDatos :=
  carpetaDeJ (2 * jMedida j) j

/-- `entidades_fs.UnidadAlmacenamiento` as restored: normalized name and
its directory tree. -/
structure UnidadE where
  nombre : String
  raiz : Respaldos.CarpetaE

def carpetaVacia : Respaldos.CarpetaE := .mk "" "" "" [] .hoja

def unidadVacia : UnidadE := ⟨"C:", carpetaVacia⟩

/-- `GestorRespaldos._deserializar_unidades`: walk the serialized list,
normalizing each unit name (`rstrip(":") + ":"`) and deserializing its
root with `_deserializar_carpeta` under the restore-time clock. -/
def unidadesDeJ (now : String) : List J → Except Unit (List UnidadE)
  | [] => .ok []
  | d :: ds =>
    match d with
    | .obj campos => do
      let nombre0 ← campoStr campos "nombre" "C:"
      let raizDatos := (campoJ campos "raiz").getD (.obj [])
      let datos ← carpeta_desde_json raizDatos
      let resto ← unidadesDeJ now ds
      .ok (⟨Cadenas.sinDosPuntosFinales nombre0 ++ ":",
        Respaldos.deserializar_carpeta now datos⟩ :: resto)
    | _ => .error ()

def deserializar_unidades_j (now : String) (j : J) : Except Unit (List UnidadE) :=
  match j with
  | .arr l => unidadesDeJ now l
  | _ => .error ()

/-- The in-memory store `SistemaArchivos` as `cargar_ultimo_respaldo`
touches it: both history stacks, the unit list with the current unit
index, the current directory as a child-index path in the current unit,
the textual current path, and the global index tree. -/
structure SistemaE where
  historial_operaciones : List J
  errores : List J
  unidades : List UnidadE
  unidad_actual : Nat
  directorio_actual : List Nat
  ruta_actual : String
  indice : IndiceGlobal.BTreeNode

def carpetaEnRuta : Respaldos.CarpetaE → List Nat → Respaldos.CarpetaE
  | c, [] => c
  | c, i :: resto => carpetaEnRuta (c.subcarpetas.getD i carpetaVacia) resto

/-- Modelled from the spec: the component walk of the system facade's
`resolver_ruta` (not in `src/`): empty and `.` components are skipped,
`..` steps to the parent (a no-op at the root), and a named component
moves into the case-insensitively matching subdirectory or fails. -/
def resolverPartes (raiz : Respaldos.CarpetaE) : List Nat → List String → Option (List Nat)
  | path, [] => some path
  | path, parte :: resto =>
    if parte = "" ∨ parte = "." then resolverPartes raiz path resto
    else if parte = ".." then resolverPartes raiz path.dropLast resto
    else
      match (carpetaEnRuta raiz path).subcarpetas.findIdx?
          (fun c => Cadenas.minusculas c.nombre == Cadenas.minusculas parte) with
      | none => none
      | some i => resolverPartes raiz (path ++ [i]) resto

/-- Modelled from the spec: `resolver_ruta` of the system facade (not in
`src/`): normalize separators, select the unit named by the leading `X:`
segment case-insensitively, then walk the remaining components; `none`
is the resolution error. -/
def resolver_ruta (unidades : List UnidadE) (ruta : String) : Option (Nat × List Nat) :=
  match Cadenas.separar (Cadenas.barrasNormales ruta) '/' with
  | [] => none
  | primero :: resto =>
    match unidades.findIdx? (fun u => Cadenas.minusculas u.nombre ==
        Cadenas.minusculas primero) with
    | none => none
    | some ui =>
      (resolverPartes (unidades.getD ui unidadVacia).raiz [] resto).map
        (fun path => (ui, path))

def rutaAux : Respaldos.CarpetaE → String → List Nat → String
  | _, acc, [] => acc
  | c, acc, i :: resto =>
    let hijo := c.subcarpetas.getD i carpetaVacia
    rutaAux hijo (acc ++ "/" ++ hijo.nombre) resto

/-- Modelled from the spec: `ruta_absoluta` of the system facade (not in
`src/`): the unit name followed by the slash-joined folder names down to
the directory. -/
def ruta_absoluta (u : UnidadE) (path : List Nat) : String :=
  rutaAux u.raiz u.nombre path

mutual

/-- Modelled from the spec: the tree walk behind
`reconstruir_indice_global` (not in `src/`): every file of every folder
becomes an index entry keyed by its absolute path. -/
def entradasCarpeta : Respaldos.CarpetaE → String → List IndiceGlobal.ArchivoIndexEntry
  | .mk _ _ _ subs root, ruta =>
    (EntidadesFS.recorrer_archivos root "inorden").map
      (fun a => ⟨a.nombre, ruta ++ "/" ++ a.nombre,
        Int.ofNat (IndiceGlobal.calcular_tamano_kb (some a.contenido)),
        a.fecha_creacion, a.fecha_modificacion, a.extension⟩) ++
    entradasSubcarpetas subs ruta

def entradasSubcarpetas : List Respaldos.CarpetaE → String →
    List IndiceGlobal.ArchivoIndexEntry
  | [], _ => []
  | c :: cs, ruta =>
    entradasCarpeta c (ruta ++ "/" ++ c.nombre) ++ entradasSubcarpetas cs ruta

end

/-- Modelled from the spec: `reconstruir_indice_global` of the system
facade (not in `src/`): rebuild the index from all files of all units. -/
def reconstruir_indice_global (unidades : List UnidadE) : IndiceGlobal.BTreeNode :=
  IndiceGlobal.reconstruir_desde_lista
    ((unidades.map (fun u => entradasCarpeta u.raiz u.nombre)).flatten)

/-- `ArchivoIndexEntry.from_dict` under `IndiceGlobalArchivos.deserializar`:
string fields default to `""`, the size to `0`. -/
def entradaDeJ (j : J) : Except Unit IndiceGlobal.ArchivoIndexEntry :=
  match j with
  | .obj campos => do
    let nombre ← campoStr campos "nombre" ""
    let ruta ← campoStr campos "ruta_completa" ""
    let tam ← (match campoJ campos "tamano_kb" with
      | none => Except.ok (0 : Int)
      | some (.num n) => Except.ok n
      | some _ => Except.error ())
    let fc ← campoStr campos "fecha_creacion" ""
    let fm ← campoStr campos "fecha_modificacion" ""
    let ext ← campoStr campos "extension" ""
    .ok ⟨nombre, ruta, tam, fc, fm, ext⟩
  | _ => .error ()

def entradasDeJ : List J → Except Unit (List IndiceGlobal.ArchivoIndexEntry)
  | [] => .ok []
  | j :: js => do
    let e ← entradaDeJ j
    let resto ← entradasDeJ js
    .ok (e :: resto)

/-- `IndiceGlobalArchivos.deserializar`: clear the tree and reinsert every
listed entry keyed by its lowercase name. -/
def deserializar_indice_j (j : J) : Except Unit IndiceGlobal.BTreeNode :=
  match j with
  | .arr l => do
    let es ← entradasDeJ l
    .ok (IndiceGlobal.reconstruir_desde_lista es)
  | _ => .error ()

/-- Lines 95-99 of `cargar_ultimo_respaldo`: a truthy `indice_global`
field is deserialized, otherwise the index is rebuilt from the trees. -/
def fase_indice (sis : SistemaE) (campos : List (String × J)) : Bool × SistemaE :=
  let ig := (campoJ campos "indice_global").getD .null
  if esFalsy ig then (true, { sis with indice := reconstruir_indice_global sis.unidades })
  else
    match deserializar_indice_j ig with
    | .error _ => (false, sis)
    | .ok t => (true, { sis with indice := t })

/-- `GestorRespaldos.cargar_ultimo_respaldo` on an already-read document:
`none` stands for a missing, unreadable or unparseable respaldo file
(failures raised before any mutation). Each later failure returns `false`
with the store as mutated so far, exactly as the `except` clause leaves
it: the history stacks are replaced before the units are parsed. -/
def cargar_ultimo_respaldo (now : String) (sis0 : SistemaE) (doc : Option J) :
    Bool × SistemaE :=
  match doc with
  | none => (false, sis0)
  | some (J.obj campos) =>
    (match campoLista campos "historial_operaciones" with
     | .error _ => (false, sis0)
     | .ok h =>
       let sis1 := { sis0 with historial_operaciones := deserializar_pila_j h }
       match campoLista campos "errores" with
       | .error _ => (false, sis1)
       | .ok e =>
         let sis2 := { sis1 with errores := deserializar_pila_j e }
         let ud := (campoJ campos "unidades").getD .null
         if esFalsy ud then fase_indice sis2 campos
         else
           match deserializar_unidades_j now ud with
           | .error _ => (false, sis2)
           | .ok us =>
             let sis3 := { sis2 with unidades := us }
             match campoStr campos "unidad_actual" "" with
             | .error _ => (false, sis3)
             | .ok nu0 =>
               let nombre_unidad := Cadenas.sinDosPuntosFinales nu0 ++ ":"
               let idx := (us.findIdx? (fun u => Cadenas.minusculas u.nombre ==
                 Cadenas.minusculas nombre_unidad)).getD 0
               let sis4 := { sis3 with unidad_actual := idx }
               let unidadSel := us.getD idx unidadVacia
               match (match campoJ campos "ruta_actual" with
                      | none => Except.ok unidadSel.nombre
                      | some (.str s) => Except.ok s
                      | some _ => Except.error ()) with
               | .error _ => (false, sis4)
               | .ok ruta_guardada =>
                 match resolver_ruta us ruta_guardada with
                 | none =>
                   let sis5 := { sis4 with
                     directorio_actual := ([] : List Nat)
                     ruta_actual := unidadSel.nombre }
                   fase_indice sis5 campos
                 | some (ui, path) =>
                   let sis5 := { sis4 with
                     unidad_actual := ui
                     directorio_actual := path
                     ruta_actual := ruta_absoluta (us.getD ui unidadVacia) path }
                   fase_indice sis5 campos)
  | some _ => (false, sis0)

/-- A document whose failure is raised before the first store mutation:
no readable document, a non-object document, or a present
`historial_operaciones` value that `reversed(...)` rejects — `None`, a
boolean or a number (lists, strings and objects all iterate). -/
def malformadoTemprano : Option J → Bool
  | none => true
  | some (J.obj campos) =>
    (match campoJ campos "historial_operaciones" with
     | none => false
     | some (.arr _) => false
     | some (.str _) => false
     | some (.obj _) => false
     | some _ => true)
  | some _ => true

/-- A fresh store with empty stacks, no units and an empty index. -/
def sisDemo : SistemaE := ⟨[], [], [], 0, [], "C:", IndiceGlobal.nodoNuevo⟩

/-- A respaldo document whose stacks parse but whose `unidades` list is
malformed (its entry is a number, not an object). -/
def docMalo : J := .obj [("historial_operaciones", .arr [.str "h1"]),
  ("errores", .arr []), ("unidades", .arr [.num 5])]

end Sistema

namespace Cadenas

theorem ltChars_iff : ∀ (as bs : List Char), ltChars as bs = true ↔ as < bs := by
  intro as
  induction as with
  | nil =>
    intro bs
    cases bs with
    | nil =>
      simp only [ltChars, Bool.false_eq_true, false_iff]
      exact fun h => nomatch h
    | cons b bs =>
      simp only [ltChars, true_iff]
      exact List.Lex.nil
  | cons c cs ih =>
    intro bs
    cases bs with
    | nil =>
      simp only [ltChars, Bool.false_eq_true, false_iff]
      exact fun h => nomatch h
    | cons d ds =>
      simp only [ltChars, Bool.or_eq_true, Bool.and_eq_true, beq_iff_eq,
        decide_eq_true_eq]
      constructor
      · rintro (hlt | ⟨rfl, htl⟩)
        · exact List.Lex.rel hlt
        · exact List.Lex.cons ((ih ds).mp htl)
      · intro h
        cases h with
        | cons h3 => exact Or.inr ⟨rfl, (ih ds).mpr h3⟩
        | rel h1 => exact Or.inl h1

theorem ltStr_iff (a b : String) : ltStr a b = true ↔ a < b := by
  rw [String.lt_iff_toList_lt]
  exact ltChars_iff a.data b.data

theorem ltStr_false (a b : String) (h : ¬ ltStr a b = true) : ¬ a < b :=
  fun hl => h ((ltStr_iff a b).mpr hl)

end Cadenas

namespace EntidadesFS

theorem ForallClaves.mono {p q : String → Prop} {t : NodoArchivo}
    (h : ForallClaves p t) (hpq : ∀ k, p k → q k) : ForallClaves q t := by
  induction h with
  | hoja => exact .hoja
  | nodo _ hk _ ihi ihd => exact .nodo ihi (hpq _ hk) ihd

theorem mem_claves_of_forall {p : String → Prop} {t : NodoArchivo}
    (h : ForallClaves p t) : ∀ k ∈ claves t, p k := by
  induction h with
  | hoja => simp [claves]
  | nodo _ hk _ ihi ihd =>
    intro k hk'
    simp only [claves, List.mem_append, List.mem_cons] at hk'
    rcases hk' with h1 | h2 | h3
    · exact ihi _ h1
    · exact h2 ▸ hk
    · exact ihd _ h3

theorem min_nodo_mem : ∀ {t : NodoArchivo} {m : Archivo},
    min_nodo t = some m → Cadenas.minusculas m.nombre ∈ claves t := by
  intro t
  induction t with
  | hoja => intro m h; cases h
  | nodo izq a der ih1 _ =>
    intro m h
    simp only [min_nodo] at h
    cases hmin : min_nodo izq with
    | none =>
      rw [hmin] at h
      simp only [Option.getD_none, Option.some.injEq] at h
      subst h
      simp [claves]
    | some m' =>
      rw [hmin] at h
      simp only [Option.getD_some, Option.some.injEq] at h
      subst h
      simp only [claves, List.mem_append]
      exact Or.inl (ih1 hmin)

theorem forall_insertar {p : String → Prop} {t : NodoArchivo} {archivo : Archivo}
    (h : ForallClaves p t) (ha : p (Cadenas.minusculas archivo.nombre)) :
    ForallClaves p (insertar_archivo t archivo).2 := by
  induction h with
  | hoja => exact .nodo .hoja ha .hoja
  | nodo hi hk hd ihi ihd =>
    simp only [insertar_archivo]
    split_ifs with h1 h2
    · exact .nodo hi hk hd
    · exact .nodo ihi hk hd
    · exact .nodo hi hk ihd

theorem bst_insertar {t : NodoArchivo} (h : BST t) (archivo : Archivo) :
    BST (insertar_archivo t archivo).2 := by
  induction h with
  | hoja => exact .nodo .hoja .hoja .hoja .hoja
  | @nodo a izq der hi hd _ _ ihi ihd =>
    simp only [insertar_archivo]
    split_ifs with h1 h2
    · exact .nodo hi hd ‹_› ‹_›
    · exact .nodo (forall_insertar hi ((Cadenas.ltStr_iff _ _).mp h2)) hd ihi ‹_›
    · have hgt : Cadenas.minusculas a.nombre < Cadenas.minusculas archivo.nombre :=
        lt_of_le_of_ne (not_lt.mp (Cadenas.ltStr_false _ _ h2)) (fun he => h1 he.symm)
      exact .nodo hi (forall_insertar hd hgt) ‹_› ihd

theorem insertar_fst_false_iff {t : NodoArchivo} (h : BST t) (archivo : Archivo) :
    (insertar_archivo t archivo).1 = false ↔ Cadenas.minusculas archivo.nombre ∈ claves t := by
  induction h with
  | hoja => simp [insertar_archivo, claves]
  | @nodo a izq der hi hd _ _ ihi ihd =>
    simp only [insertar_archivo, claves]
    split_ifs with h1 h2
    · simp [h1]
    · have h2' := (Cadenas.ltStr_iff _ _).mp h2
      dsimp only
      rw [ihi]
      simp only [List.mem_append, List.mem_cons]
      constructor
      · exact fun hm => Or.inl hm
      · rintro (hm | he | hm)
        · exact hm
        · exact absurd he (ne_of_lt h2')
        · exact absurd (mem_claves_of_forall hd _ hm) (not_lt.mpr (le_of_lt h2'))
    · have hgt : Cadenas.minusculas a.nombre < Cadenas.minusculas archivo.nombre :=
        lt_of_le_of_ne (not_lt.mp (Cadenas.ltStr_false _ _ h2)) (fun he => h1 he.symm)
      dsimp only
      rw [ihd]
      simp only [List.mem_append, List.mem_cons]
      constructor
      · exact fun hm => Or.inr (Or.inr hm)
      · rintro (hm | he | hm)
        · exact absurd (mem_claves_of_forall hi _ hm) (not_lt.mpr (le_of_lt hgt))
        · exact absurd he.symm (ne_of_lt hgt)
        · exact hm

theorem min_nodo_getD_mem {t : NodoArchivo} (h : t ≠ .hoja) (a : Archivo) :
    Cadenas.minusculas ((min_nodo t).getD a).nombre ∈ claves t := by
  cases t with
  | hoja => exact absurd rfl h
  | nodo izq b der => exact min_nodo_mem (t := .nodo izq b der) rfl

theorem forall_eliminar {p : String → Prop} {t : NodoArchivo}
    (h : ForallClaves p t) : ∀ k, ForallClaves p (eliminar_archivo_nodo t k).2 := by
  induction h with
  | hoja => intro k; exact .hoja
  | @nodo izq a der hi hk hd ihi ihd =>
    intro k
    simp only [eliminar_archivo_nodo]
    split_ifs with h1 h2 h3 h4
    · exact .nodo (ihi k) hk hd
    · exact .nodo hi hk (ihd k)
    · exact hd
    · exact hi
    · exact .nodo hi (mem_claves_of_forall hd _ (min_nodo_getD_mem h4 a)) (ihd _)

theorem min_nodo_some {t : NodoArchivo} (h : t ≠ .hoja) (a : Archivo) :
    min_nodo t = some ((min_nodo t).getD a) := by
  cases t with
  | hoja => exact absurd rfl h
  | nodo izq b der => simp [min_nodo]

theorem eliminar_min_forall {t : NodoArchivo} (h : BST t) :
    ∀ {m : Archivo}, min_nodo t = some m →
      ForallClaves (fun k => Cadenas.minusculas m.nombre < k)
        (eliminar_archivo_nodo t (Cadenas.minusculas m.nombre)).2 := by
  induction h with
  | hoja => intro m hm; cases hm
  | @nodo a izq der hi hd hbi hbd ihi ihd =>
    intro m hm
    cases izq with
    | hoja =>
      simp only [min_nodo, Option.getD_none, Option.some.injEq] at hm
      subst hm
      simp only [eliminar_archivo_nodo]
      split_ifs with h1
      · exact absurd ((Cadenas.ltStr_iff _ _).mp h1) (lt_irrefl _)
      · exact hd
    | nodo izq1 a1 der1 =>
      have hm' : min_nodo (.nodo izq1 a1 der1) = some m := by
        simp only [min_nodo, Option.getD_some, Option.some.injEq] at hm ⊢
        exact hm
      have hmema : Cadenas.minusculas m.nombre ∈ claves (.nodo izq1 a1 der1) := min_nodo_mem hm'
      have hlt : Cadenas.minusculas m.nombre < Cadenas.minusculas a.nombre :=
        mem_claves_of_forall hi _ hmema
      simp only [eliminar_archivo_nodo, if_pos ((Cadenas.ltStr_iff _ _).mpr hlt)]
      exact .nodo (ihi hm') hlt (hd.mono fun k hk => lt_trans hlt hk)

theorem bst_eliminar {t : NodoArchivo} (h : BST t) :
    ∀ k, BST (eliminar_archivo_nodo t k).2 := by
  induction h with
  | @nodo a izq der hi hd hbi hbd ihi ihd =>
    intro k
    simp only [eliminar_archivo_nodo]
    split_ifs with h1 h2 h3 h4
    · exact .nodo (forall_eliminar hi k) hd (ihi k) hbd
    · exact .nodo hi (forall_eliminar hd k) hbi (ihd k)
    · exact hbd
    · exact hbi
    · have hm : min_nodo der = some ((min_nodo der).getD a) := min_nodo_some h4 a
      have hmem : Cadenas.minusculas ((min_nodo der).getD a).nombre ∈ claves der :=
        min_nodo_getD_mem h4 a
      have hgt : Cadenas.minusculas a.nombre < Cadenas.minusculas ((min_nodo der).getD a).nombre :=
        mem_claves_of_forall hd _ hmem
      exact .nodo (hi.mono fun kk hkk => lt_trans hkk hgt)
        (eliminar_min_forall hbd hm) hbi (ihd _)
  | hoja => intro k; exact .hoja

theorem bst_pairwise {t : NodoArchivo} (h : BST t) :
    (claves t).Pairwise (· < ·) := by
  induction h with
  | hoja => simp [claves]
  | @nodo a izq der hi hd _ _ ihi ihd =>
    simp only [claves]
    rw [List.pairwise_append]
    refine ⟨ihi, ?_, ?_⟩
    · rw [List.pairwise_cons]
      exact ⟨mem_claves_of_forall hd, ihd⟩
    · intro x hx y hy
      rcases List.mem_cons.mp hy with rfl | hy'
      · exact mem_claves_of_forall hi x hx
      · exact lt_trans (mem_claves_of_forall hi x hx) (mem_claves_of_forall hd y hy')

theorem claves_eq_inorden (t : NodoArchivo) :
    claves t = (recorrer_archivos t "inorden").map (fun a => Cadenas.minusculas a.nombre) := by
  induction t with
  | hoja => rfl
  | nodo izq a der ih1 ih2 => simp [claves, recorrer_archivos, ih1, ih2]

theorem bst_aplicar_todas (ops : List Operacion) : BST (aplicar_todas ops) := by
  have h : ∀ t, BST t → BST (ops.foldl aplicar t) := by
    induction ops with
    | nil => exact fun t h => h
    | cons op rest ih =>
      intro t h
      cases op with
      | agregar archivo => exact ih _ (bst_insertar h archivo)
      | eliminar nombre => exact ih _ (bst_eliminar h _)
  exact h .hoja .hoja

end EntidadesFS

namespace IndiceGlobal

theorem medidaLista_append (l1 l2 : List BTreeNode) :
    medidaLista (l1 ++ l2) = medidaLista l1 + medidaLista l2 := by
  induction l1 with
  | nil => simp [medidaLista]
  | cons h t ih => simp [medidaLista, ih]; omega

theorem medida_pos (n : BTreeNode) : 1 ≤ medida n := by
  cases n with
  | mk b cs vs hs => simp [medida]

theorem le_medidaLista_of_mem {c : BTreeNode} : ∀ {hs : List BTreeNode},
    c ∈ hs → medida c ≤ medidaLista hs := by
  intro hs
  induction hs with
  | nil => intro h; cases h
  | cons x xs ih =>
    intro h
    rcases List.mem_cons.mp h with rfl | h'
    · simp only [medidaLista]
      omega
    · have := ih h'
      simp only [medidaLista]
      omega

theorem medidaLista_take_le (n : Nat) (hs : List BTreeNode) :
    medidaLista (hs.take n) ≤ medidaLista hs := by
  conv_rhs => rw [← List.take_append_drop n hs]
  rw [medidaLista_append]
  omega

theorem medidaLista_drop_le (n : Nat) (hs : List BTreeNode) :
    medidaLista (hs.drop n) ≤ medidaLista hs := by
  conv_rhs => rw [← List.take_append_drop n hs]
  rw [medidaLista_append]
  omega

theorem getD_mem_of_lt {hs : List BTreeNode} {i : Nat} (h : i < hs.length) :
    hs.getD i nodoNuevo ∈ hs := by
  rw [List.getD_eq_getElem?_getD, List.getElem?_eq_getElem h]
  exact List.getElem_mem h

theorem medida_getD_le {hs : List BTreeNode} {i : Nat} (h : i < hs.length) :
    medida (hs.getD i nodoNuevo) ≤ medidaLista hs :=
  le_medidaLista_of_mem (getD_mem_of_lt h)

theorem posInsercion_le (cs : List String) (clave : String) :
    posInsercion cs clave ≤ cs.length := Nat.sub_le _ _

theorem insertIdx_perm_cons {α : Type} (a : α) :
    ∀ (n : Nat) (l : List α), n ≤ l.length → l.insertIdx n a ~ a :: l := by
  intro n
  induction n with
  | zero => intro l _; rw [List.insertIdx_zero]
  | succ n ih =>
    intro l hl
    cases l with
    | nil => cases hl
    | cons b l' =>
      rw [List.insertIdx_succ_cons]
      exact ((ih l' (Nat.le_of_succ_le_succ hl)).cons b).trans (List.Perm.swap a b l')

theorem flatten_set_append {e : ArchivoIndexEntry} :
    ∀ (k : Nat) (vs : List (List ArchivoIndexEntry)), k < vs.length →
      (vs.set k (vs.getD k [] ++ [e])).flatten ~ e :: vs.flatten := by
  intro k
  induction k with
  | zero =>
    intro vs hk
    cases vs with
    | nil => cases hk
    | cons v vs' =>
      simp only [List.set_cons_zero, List.getD_cons_zero, List.flatten_cons]
      rw [List.append_assoc]
      exact List.perm_middle
  | succ k ih =>
    intro vs hk
    cases vs with
    | nil => cases hk
    | cons v vs' =>
      simp only [List.set_cons_succ, List.getD_cons_succ, List.flatten_cons]
      calc v ++ (vs'.set k (vs'.getD k [] ++ [e])).flatten
          ~ v ++ (e :: vs'.flatten) := (ih vs' (Nat.lt_of_succ_lt_succ hk)).append_left v
        _ ~ e :: (v ++ vs'.flatten) := List.perm_middle

theorem recorreHijos_congr {r1 r2 : BTreeNode → List ArchivoIndexEntry} :
    ∀ (vs : List (List ArchivoIndexEntry)) (hs : List BTreeNode),
      (∀ c ∈ hs, r1 c = r2 c) →
      recorreHijos r1 vs hs = recorreHijos r2 vs hs := by
  intro vs
  induction vs with
  | nil =>
    intro hs h
    simp only [recorreHijos]
    cases hl : hs.getLast? with
    | none => rfl
    | some c => exact h c (List.mem_of_mem_getLast? (Option.mem_def.mpr hl))
  | cons v vs' ih =>
    intro hs h
    cases hs with
    | nil => rfl
    | cons c hs' =>
      simp only [recorreHijos]
      rw [h c (List.mem_cons_self c hs'), ih hs' (fun x hx => h x (List.mem_cons_of_mem c hx))]

theorem recorreHijos_set {r : BTreeNode → List ArchivoIndexEntry}
    {e : ArchivoIndexEntry} {c : BTreeNode} :
    ∀ (vs : List (List ArchivoIndexEntry)) (hs : List BTreeNode) (i : Nat),
      hs.length = vs.length + 1 → i < hs.length →
      r c ~ e :: r (hs.getD i nodoNuevo) →
      recorreHijos r vs (hs.set i c) ~ e :: recorreHijos r vs hs := by
  intro vs
  induction vs with
  | nil =>
    intro hs i hlen hi hp
    match hs, hlen with
    | [h0], _ =>
      match i, hi with
      | 0, _ =>
        simpa only [recorreHijos, List.set_cons_zero, List.getLast?_singleton,
          List.getD_cons_zero] using hp
  | cons v vs' ih =>
    intro hs i hlen hi hp
    cases hs with
    | nil => cases hi
    | cons h0 hs' =>
      cases i with
      | zero =>
        simp only [List.set_cons_zero, recorreHijos, List.getD_cons_zero] at hp ⊢
        calc r c ++ v ++ recorreHijos r vs' hs'
            ~ (e :: r h0) ++ v ++ recorreHijos r vs' hs' := by
              exact (hp.append_right _).append_right _
          _ = e :: (r h0 ++ v ++ recorreHijos r vs' hs') := rfl
      | succ i' =>
        simp only [List.set_cons_succ, recorreHijos, List.getD_cons_succ] at hp ⊢
        have hrec := ih hs' i' (by simpa using hlen) (by simpa using hi) hp
        calc r h0 ++ v ++ recorreHijos r vs' (hs'.set i' c)
            ~ r h0 ++ v ++ (e :: recorreHijos r vs' hs') := (hrec.append_left _)
          _ ~ e :: (r h0 ++ v ++ recorreHijos r vs' hs') := List.perm_middle

theorem recorreHijos_decompose {r : BTreeNode → List ArchivoIndexEntry} :
    ∀ (k : Nat) (vs : List (List ArchivoIndexEntry)) (hs : List BTreeNode),
      hs.length = vs.length + 1 → k < vs.length →
      recorreHijos r vs hs =
        recorreHijos r (vs.take k) (hs.take (k+1)) ++ vs.getD k [] ++
        recorreHijos r (vs.drop (k+1)) (hs.drop (k+1)) := by
  intro k
  induction k with
  | zero =>
    intro vs hs hlen hk
    cases vs with
    | nil => simp at hk
    | cons v vs' =>
      cases hs with
      | nil => simp at hlen
      | cons h0 hs' =>
        simp only [List.take_succ_cons, List.take_zero, List.getD_cons_zero,
          List.drop_succ_cons, List.drop_zero]
        simp [recorreHijos, List.getLast?_singleton]
  | succ k ih =>
    intro vs hs hlen hk
    cases vs with
    | nil => simp at hk
    | cons v vs' =>
      cases hs with
      | nil => simp at hlen
      | cons h0 hs' =>
        have hlen' : hs'.length = vs'.length + 1 := by simpa using hlen
        have hk' : k < vs'.length := by simpa using hk
        simp only [List.take_succ_cons, List.getD_cons_succ, List.drop_succ_cons]
        simp only [recorreHijos]
        rw [ih vs' hs' hlen' hk']
        simp [List.append_assoc]

theorem recorreHijos_split {r : BTreeNode → List ArchivoIndexEntry}
    {h1 h2 : BTreeNode} {vm : List ArchivoIndexEntry} :
    ∀ (i : Nat) (vs : List (List ArchivoIndexEntry)) (hs : List BTreeNode),
      hs.length = vs.length + 1 → i < hs.length →
      r h1 ++ vm ++ r h2 = r (hs.getD i nodoNuevo) →
      recorreHijos r (vs.insertIdx i vm) ((hs.set i h1).insertIdx (i+1) h2) =
        recorreHijos r vs hs := by
  intro i
  induction i with
  | zero =>
    intro vs hs hlen hi hp
    cases hs with
    | nil => simp at hi
    | cons h0 hs' =>
      rw [List.getD_cons_zero] at hp
      cases vs with
      | nil =>
        have hnil : hs' = [] := by simpa using hlen
        subst hnil
        simp only [List.insertIdx_zero, List.set_cons_zero, List.insertIdx_succ_cons]
        simp only [recorreHijos, List.getLast?_singleton]
        exact hp
      | cons v vs' =>
        simp only [List.insertIdx_zero, List.set_cons_zero, List.insertIdx_succ_cons]
        simp only [recorreHijos]
        rw [← hp]
        simp [List.append_assoc]
  | succ i' ih =>
    intro vs hs hlen hi hp
    cases hs with
    | nil => simp at hi
    | cons h0 hs' =>
      cases vs with
      | nil =>
        have hnil : hs' = [] := by simpa using hlen
        subst hnil
        simp at hi
      | cons v vs' =>
        rw [List.getD_cons_succ] at hp
        have hlen' : hs'.length = vs'.length + 1 := by simpa using hlen
        have hi' : i' < hs'.length := by simpa using hi
        simp only [List.insertIdx_succ_cons, List.set_cons_succ, recorreHijos]
        exact congrArg (fun z => r h0 ++ v ++ z) (ih vs' hs' hlen' hi' hp)

theorem recorrerNodo_fuel :
    ∀ (f1 : Nat) {f2 : Nat} {n : BTreeNode}, medida n ≤ f1 → medida n ≤ f2 →
      recorrerNodo f1 n = recorrerNodo f2 n := by
  intro f1
  induction f1 with
  | zero =>
    intro f2 n h1 _
    have := medida_pos n
    omega
  | succ f1 ih =>
    intro f2 n h1 h2
    cases f2 with
    | zero =>
      have := medida_pos n
      omega
    | succ f2 =>
      cases n with
      | mk b cs vs hs =>
        cases b with
        | true => rfl
        | false =>
          simp only [recorrerNodo]
          have hlist : medidaLista hs ≤ f1 ∧ medidaLista hs ≤ f2 := by
            simp only [medida] at h1 h2
            omega
          refine recorreHijos_congr vs hs (fun c hc => ?_)
          have hc1 : medida c ≤ f1 := le_trans (le_medidaLista_of_mem hc) hlist.1
          have hc2 : medida c ≤ f2 := le_trans (le_medidaLista_of_mem hc) hlist.2
          exact ih hc1 hc2

theorem recorrerNodo_eq_recorrer {fuel : Nat} {n : BTreeNode} (h : medida n ≤ fuel) :
    recorrerNodo fuel n = recorrer n :=
  recorrerNodo_fuel fuel h le_rfl

theorem recorrer_hoja (cs : List String) (vs : List (List ArchivoIndexEntry))
    (hs : List BTreeNode) : recorrer (.mk true cs vs hs) = vs.flatten := by
  show recorrerNodo (medida (.mk true cs vs hs)) _ = _
  rw [show medida (BTreeNode.mk true cs vs hs) = medidaLista hs + 1 by
    simp [medida]; omega]
  rfl

theorem recorrer_interno (cs : List String) (vs : List (List ArchivoIndexEntry))
    (hs : List BTreeNode) :
    recorrer (.mk false cs vs hs) = recorreHijos recorrer vs hs := by
  show recorrerNodo (medida (.mk false cs vs hs)) _ = _
  rw [show medida (BTreeNode.mk false cs vs hs) = medidaLista hs + 1 by
    simp [medida]; omega]
  show recorreHijos (recorrerNodo (medidaLista hs)) vs hs = _
  exact recorreHijos_congr vs hs
    (fun c hc => recorrerNodo_eq_recorrer (le_medidaLista_of_mem hc))

theorem getD_eq_get {α : Type} {l : List α} {i : Nat} (h : i < l.length) (d : α) :
    l.getD i d = l[i] := by
  rw [List.getD_eq_getElem?_getD, List.getElem?_eq_getElem h]
  rfl

theorem flatten_decompose {k : Nat} {vs : List (List ArchivoIndexEntry)}
    (hk : k < vs.length) :
    vs.flatten = (vs.take k).flatten ++ vs.getD k [] ++ (vs.drop (k+1)).flatten := by
  conv_lhs => rw [← List.take_append_drop k vs]
  rw [List.flatten_append]
  have hdrop : vs.drop k = vs.getD k [] :: vs.drop (k+1) := by
    rw [getD_eq_get hk]
    exact List.drop_eq_getElem_cons hk
  rw [hdrop]
  simp [List.append_assoc]

theorem dividir_spec {t : Nat} (ht : 1 ≤ t) (b : Bool) (cs : List String)
    (vs : List (List ArchivoIndexEntry)) (hs : List BTreeNode) (i : Nat)
    {hijo : BTreeNode} (hgen : hs.getD i nodoNuevo = hijo)
    (hbf : BF hijo) (hfull : hijo.claves.length = 2*t - 1) :
    ∃ m vm h1 h2,
      dividir_hijo t (.mk b cs vs hs) i =
        .mk b (cs.insertIdx i m) (vs.insertIdx i vm)
          ((hs.set i h1).insertIdx (i+1) h2) ∧
      recorrer h1 ++ vm ++ recorrer h2 = recorrer hijo ∧
      BF h1 ∧ BF h2 ∧
      medida h1 ≤ medida hijo ∧ medida h2 ≤ medida hijo := by
  cases hbf with
  | @hoja cs' vs' hl =>
    simp only [BTreeNode.claves] at hfull
    have hk : t - 1 < vs'.length := by rw [hl, hfull]; omega
    refine ⟨cs'.getD (t-1) "", vs'.getD (t-1) [],
      .mk true (cs'.take (t-1)) (vs'.take (t-1)) [],
      .mk true (cs'.drop t) (vs'.drop t) [], ?_, ?_, ?_, ?_, ?_, ?_⟩
    · simp only [dividir_hijo, BTreeNode.es_hoja, BTreeNode.claves,
        BTreeNode.valores, BTreeNode.hijos]
      rw [hgen]
      simp [BTreeNode.es_hoja, BTreeNode.claves, BTreeNode.valores, BTreeNode.hijos]
    · rw [recorrer_hoja, recorrer_hoja, recorrer_hoja]
      have ht' : t - 1 + 1 = t := by omega
      rw [← ht']
      exact (flatten_decompose hk).symm
    · exact .hoja (by simp [List.length_take, hl])
    · exact .hoja (by simp [List.length_drop, hl])
    · simp only [medida, medidaLista]
      omega
    · simp only [medida, medidaLista]
      omega
  | @interno cs' vs' hs' hl1 hl2 hl3 =>
    simp only [BTreeNode.claves] at hfull
    have hk : t - 1 < vs'.length := by rw [hl1, hfull]; omega
    have hklen : hs'.length = vs'.length + 1 := by rw [hl2, hl1]
    refine ⟨cs'.getD (t-1) "", vs'.getD (t-1) [],
      .mk false (cs'.take (t-1)) (vs'.take (t-1)) (hs'.take t),
      .mk false (cs'.drop t) (vs'.drop t) (hs'.drop t), ?_, ?_, ?_, ?_, ?_, ?_⟩
    · simp only [dividir_hijo, BTreeNode.es_hoja, BTreeNode.claves,
        BTreeNode.valores, BTreeNode.hijos]
      rw [hgen]
      simp [BTreeNode.es_hoja, BTreeNode.claves, BTreeNode.valores, BTreeNode.hijos]
    · rw [recorrer_interno, recorrer_interno, recorrer_interno]
      have ht' : t - 1 + 1 = t := by omega
      have hdec := recorreHijos_decompose (r := recorrer) (t-1) vs' hs' hklen hk
      rw [ht'] at hdec
      exact hdec.symm
    · refine .interno (by simp [List.length_take, hl1]) ?_
        (fun c hc => hl3 c (List.mem_of_mem_take hc))
      simp only [List.length_take]
      rw [hl2, hfull]
      omega
    · refine .interno (by simp [List.length_drop, hl1]) ?_
        (fun c hc => hl3 c (List.mem_of_mem_drop hc))
      simp only [List.length_drop]
      rw [hl2, hfull]
      omega
    · have := medidaLista_take_le t hs'
      simp only [medida]
      omega
    · have := medidaLista_drop_le t hs'
      simp only [medida]
      omega

/-- After splitting the full child at `i` into `h1`, median `vm`, `h2`,
inserting into either of the two replacement children (index `i` or `i+1`)
adds `e` to the traversal and keeps the shape invariant. -/
theorem paso_dividido {t fuel : Nat}
    (ih : ∀ (n : BTreeNode) (clave : String) (e : ArchivoIndexEntry),
      BF n → medida n ≤ fuel →
      recorrer (insertar_no_lleno t fuel n clave e) ~ e :: recorrer n ∧
      BF (insertar_no_lleno t fuel n clave e))
    {cs : List String} {vs : List (List ArchivoIndexEntry)} {hs : List BTreeNode}
    {m : String} {vm : List ArchivoIndexEntry} {h1 h2 : BTreeNode}
    {i j : Nat} (clave : String) (e : ArchivoIndexEntry)
    (hl1 : vs.length = cs.length) (hl2 : hs.length = cs.length + 1)
    (hl3 : ∀ c ∈ hs, BF c)
    (hile : i ≤ cs.length) (hilt : i < hs.length)
    (hpieces : recorrer h1 ++ vm ++ recorrer h2 = recorrer (hs.getD i nodoNuevo))
    (hbf1 : BF h1) (hbf2 : BF h2)
    (hm1 : medida h1 ≤ fuel) (hm2 : medida h2 ≤ fuel)
    (hj : j = i ∨ j = i + 1) :
    recorrer (.mk false (cs.insertIdx i m) (vs.insertIdx i vm)
        (((hs.set i h1).insertIdx (i+1) h2).set j
          (insertar_no_lleno t fuel
            (((hs.set i h1).insertIdx (i+1) h2).getD j nodoNuevo) clave e))) ~
      e :: recorrer (.mk false cs vs hs) ∧
    BF (.mk false (cs.insertIdx i m) (vs.insertIdx i vm)
        (((hs.set i h1).insertIdx (i+1) h2).set j
          (insertar_no_lleno t fuel
            (((hs.set i h1).insertIdx (i+1) h2).getD j nodoNuevo) clave e))) := by
  have hlen2 : ((hs.set i h1).insertIdx (i+1) h2).length = hs.length + 1 := by
    rw [List.length_insertIdx (i+1) (hs.set i h1) (by rw [List.length_set]; omega),
      List.length_set]
  have hgdj : ((hs.set i h1).insertIdx (i+1) h2).getD j nodoNuevo = h1 ∨
      ((hs.set i h1).insertIdx (i+1) h2).getD j nodoNuevo = h2 := by
    rcases hj with h | h
    · left
      rw [h]
      rw [getD_eq_get (by rw [hlen2]; omega) nodoNuevo]
      rw [List.getElem_insertIdx_of_lt (hs.set i h1) h2 (i+1) i (Nat.lt_succ_self i)
        (by rw [List.length_set]; omega)]
      exact List.getElem_set_self (by rw [List.length_set]; omega)
    · right
      rw [h]
      rw [getD_eq_get (by rw [hlen2]; omega) nodoNuevo]
      exact List.getElem_insertIdx_self (hs.set i h1) h2 (i+1)
        (by rw [List.length_set]; omega)
  have hbfj : BF (((hs.set i h1).insertIdx (i+1) h2).getD j nodoNuevo) := by
    rcases hgdj with h | h <;> rw [h] <;> assumption
  have hmj : medida (((hs.set i h1).insertIdx (i+1) h2).getD j nodoNuevo) ≤ fuel := by
    rcases hgdj with h | h <;> rw [h] <;> assumption
  have hins := ih (((hs.set i h1).insertIdx (i+1) h2).getD j nodoNuevo) clave e hbfj hmj
  have hjlt : j < ((hs.set i h1).insertIdx (i+1) h2).length := by
    rcases hj with h | h <;> rw [h, hlen2] <;> omega
  constructor
  · rw [recorrer_interno, recorrer_interno]
    refine (recorreHijos_set (vs.insertIdx i vm) _ j ?_ hjlt hins.1).trans ?_
    · rw [hlen2, List.length_insertIdx i vs (by omega)]
      omega
    · rw [recorreHijos_split i vs hs (by omega) hilt hpieces]
  · refine .interno ?_ ?_ ?_
    · rw [List.length_insertIdx i vs (by omega), List.length_insertIdx i cs hile, hl1]
    · rw [List.length_set, hlen2, List.length_insertIdx i cs hile]
      omega
    · intro c hc
      rcases List.mem_or_eq_of_mem_set hc with hc2 | rfl
      · have hp2 : (hs.set i h1).insertIdx (i+1) h2 ~ h2 :: hs.set i h1 :=
          insertIdx_perm_cons h2 (i+1) (hs.set i h1) (by rw [List.length_set]; omega)
        rcases List.mem_cons.mp (hp2.mem_iff.mp hc2) with rfl | hmem
        · exact hbf2
        · rcases List.mem_or_eq_of_mem_set hmem with hm3 | rfl
          · exact hl3 c hm3
          · exact hbf1
      · exact hins.2

/-- `_insertar_no_lleno` on a well-formed node with enough fuel adds the
entry to the traversal (up to permutation) and preserves the shape
invariant. -/
theorem insertar_no_lleno_spec {t : Nat} (ht : 1 ≤ t) :
    ∀ (fuel : Nat) (n : BTreeNode) (clave : String) (e : ArchivoIndexEntry),
      BF n → medida n ≤ fuel →
      recorrer (insertar_no_lleno t fuel n clave e) ~ e :: recorrer n ∧
      BF (insertar_no_lleno t fuel n clave e) := by
  intro fuel
  induction fuel with
  | zero =>
    intro n clave e hbf hm
    have := medida_pos n
    omega
  | succ fuel ih =>
    intro n clave e hbf hm
    cases hbf with
    | @hoja cs vs hl =>
      have hile := posInsercion_le cs clave
      simp only [insertar_no_lleno]
      split_ifs with hdup
      · refine ⟨?_, .hoja (by rw [List.length_set, hl])⟩
        rw [recorrer_hoja, recorrer_hoja]
        exact flatten_set_append (posInsercion cs clave - 1) vs
          (by have := hdup.1; omega)
      · constructor
        · rw [recorrer_hoja, recorrer_hoja]
          have hip : vs.insertIdx (posInsercion cs clave) [e] ~ [e] :: vs :=
            insertIdx_perm_cons [e] (posInsercion cs clave) vs (by omega)
          simpa using hip.flatten
        · refine .hoja ?_
          rw [List.length_insertIdx (posInsercion cs clave) vs (by omega),
            List.length_insertIdx (posInsercion cs clave) cs hile, hl]
    | @interno cs vs hs hl1 hl2 hl3 =>
      have hile : posInsercion cs clave ≤ cs.length := posInsercion_le cs clave
      have hilt : posInsercion cs clave < hs.length := by omega
      have hbfh : BF (hs.getD (posInsercion cs clave) nodoNuevo) :=
        hl3 _ (getD_mem_of_lt hilt)
      have hmh : medida (hs.getD (posInsercion cs clave) nodoNuevo) ≤ fuel := by
        have hge := medida_getD_le hilt
        simp only [medida] at hm
        omega
      simp only [insertar_no_lleno]
      by_cases hfull : (hs.getD (posInsercion cs clave) nodoNuevo).claves.length = 2*t - 1
      · rw [if_pos hfull]
        obtain ⟨m, vm, h1, h2, heq, hpieces, hbf1, hbf2, hm1, hm2⟩ :=
          dividir_spec ht false cs vs hs (posInsercion cs clave) rfl hbfh hfull
        rw [heq]
        simp only [BTreeNode.es_hoja, BTreeNode.claves, BTreeNode.valores,
          BTreeNode.hijos]
        by_cases hcmp : Cadenas.ltStr
          ((cs.insertIdx (posInsercion cs clave) m).getD (posInsercion cs clave) "")
          clave = true
        · rw [if_pos hcmp]
          exact paso_dividido ih clave e hl1 hl2 hl3 hile hilt hpieces hbf1 hbf2
            (le_trans hm1 hmh) (le_trans hm2 hmh) (Or.inr rfl)
        · rw [if_neg hcmp]
          exact paso_dividido ih clave e hl1 hl2 hl3 hile hilt hpieces hbf1 hbf2
            (le_trans hm1 hmh) (le_trans hm2 hmh) (Or.inl rfl)
      · rw [if_neg hfull]
        constructor
        · rw [recorrer_interno, recorrer_interno]
          exact recorreHijos_set vs hs (posInsercion cs clave) (by omega) hilt
            (ih (hs.getD (posInsercion cs clave) nodoNuevo) clave e hbfh hmh).1
        · refine .interno hl1 (by rw [List.length_set]; exact hl2) ?_
          intro c hc
          rcases List.mem_or_eq_of_mem_set hc with hc2 | rfl
          · exact hl3 c hc2
          · exact (ih (hs.getD (posInsercion cs clave) nodoNuevo) clave e hbfh hmh).2

/-- `BTree.insertar` on a well-formed root adds the entry to the traversal
(up to permutation) and preserves the shape invariant, also when the full
root is split first. -/
theorem insertar_spec (t : Nat) (ht : 1 ≤ t) (raiz : BTreeNode) (clave : String)
    (e : ArchivoIndexEntry) (hbf : BF raiz) :
    recorrer (insertar t raiz clave e) ~ e :: recorrer raiz ∧
    BF (insertar t raiz clave e) := by
  simp only [insertar]
  by_cases hfull : raiz.claves.length = 2*t - 1
  · rw [if_pos hfull]
    obtain ⟨m, vm, h1, h2, heq, hpieces, hbf1, hbf2, hm1, hm2⟩ :=
      dividir_spec ht false [] [] [raiz] 0 rfl hbf hfull
    rw [heq]
    have hbfnr : BF (BTreeNode.mk false ([].insertIdx 0 m) ([].insertIdx 0 vm)
        (([raiz].set 0 h1).insertIdx 1 h2)) := by
      refine .interno rfl rfl ?_
      intro c hc
      have hc2 : c ∈ [h1, h2] := hc
      rcases List.mem_cons.mp hc2 with rfl | hc3
      · exact hbf1
      · rcases List.mem_cons.mp hc3 with rfl | hc4
        · exact hbf2
        · exact absurd hc4 (List.not_mem_nil c)
    have hrec : recorrer (BTreeNode.mk false ([].insertIdx 0 m) ([].insertIdx 0 vm)
        (([raiz].set 0 h1).insertIdx 1 h2)) = recorrer raiz := by
      rw [recorrer_interno]
      show recorrer h1 ++ vm ++ recorrer h2 = recorrer raiz
      exact hpieces
    have hspec := insertar_no_lleno_spec ht
      (medida (BTreeNode.mk false ([].insertIdx 0 m) ([].insertIdx 0 vm)
        (([raiz].set 0 h1).insertIdx 1 h2)))
      (BTreeNode.mk false ([].insertIdx 0 m) ([].insertIdx 0 vm)
        (([raiz].set 0 h1).insertIdx 1 h2)) (Cadenas.minusculas clave) e hbfnr le_rfl
    exact ⟨hspec.1.trans (by rw [hrec]), hspec.2⟩
  · rw [if_neg hfull]
    exact insertar_no_lleno_spec ht (medida raiz) raiz (Cadenas.minusculas clave) e hbf le_rfl

/-- Reinserting a list of entries one by one (as `_reconstruir_desde_lista`
does) appends them, as a multiset, to the traversal. -/
theorem foldl_insertar_spec (t : Nat) (ht : 1 ≤ t) (l : List ArchivoIndexEntry) :
    ∀ (raiz : BTreeNode), BF raiz →
      recorrer (l.foldl (fun r e => insertar t r e.nombre e) raiz) ~
        l ++ recorrer raiz ∧
      BF (l.foldl (fun r e => insertar t r e.nombre e) raiz) := by
  induction l with
  | nil => exact fun raiz h => ⟨by simp, h⟩
  | cons a l ih =>
    intro raiz h
    have h1 := insertar_spec t ht raiz a.nombre a h
    have h2 := ih (insertar t raiz a.nombre a) h1.2
    refine ⟨h2.1.trans ?_, h2.2⟩
    exact (h1.1.append_left l).trans List.perm_middle

/-- The fresh empty node is well formed. -/
theorem bf_nodoNuevo : BF nodoNuevo := .hoja rfl

/-- `_reconstruir_desde_lista` produces a well-formed tree whose traversal
is a permutation of the given entry list. -/
theorem reconstruir_spec (l : List ArchivoIndexEntry) :
    recorrer (reconstruir_desde_lista l) ~ l ∧ BF (reconstruir_desde_lista l) := by
  have h := foldl_insertar_spec 2 (by omega) l nodoNuevo bf_nodoNuevo
  have hnil : recorrer nodoNuevo = [] := rfl
  exact ⟨h.1.trans (by rw [hnil, List.append_nil]), h.2⟩

/-- Two pointwise complementary filters of a list split its length. -/
theorem length_filter_add2 {α : Type} (p q : α → Bool) (hpq : ∀ x, q x = !(p x))
    (l : List α) : (l.filter p).length + (l.filter q).length = l.length := by
  induction l with
  | nil => rfl
  | cons a l ih => by_cases h : p a = true <;> simp [List.filter_cons, h, hpq] <;> omega

/-- `eliminar_por_prefijo` reports the number of entries whose normalized
path extends the normalized prefix and its resulting tree traverses to the
complementary entries. -/
theorem eliminar_por_prefijo_spec (raiz : BTreeNode) (prefijo : String) :
    (eliminar_por_prefijo raiz prefijo).1 =
      ((recorrer raiz).filter (fun e => Cadenas.empiezaCon (normalizar_ruta e.ruta_completa)
        (normalizar_ruta prefijo))).length ∧
    recorrer (eliminar_por_prefijo raiz prefijo).2 ~
      (recorrer raiz).filter (fun e => !(Cadenas.empiezaCon (normalizar_ruta e.ruta_completa)
        (normalizar_ruta prefijo))) := by
  have hsum := length_filter_add2
    (fun e => Cadenas.empiezaCon (normalizar_ruta e.ruta_completa) (normalizar_ruta prefijo))
    (fun e => !(Cadenas.empiezaCon (normalizar_ruta e.ruta_completa) (normalizar_ruta prefijo)))
    (fun x => rfl) (recorrer raiz)
  simp only [eliminar_por_prefijo]
  by_cases hpos : 0 < (recorrer raiz).length -
      ((recorrer raiz).filter (fun e => !(Cadenas.empiezaCon (normalizar_ruta e.ruta_completa)
        (normalizar_ruta prefijo)))).length
  · rw [if_pos hpos]
    constructor
    · show (recorrer raiz).length -
        ((recorrer raiz).filter (fun e => !(Cadenas.empiezaCon (normalizar_ruta e.ruta_completa)
          (normalizar_ruta prefijo)))).length = _
      omega
    · show recorrer (reconstruir_desde_lista _) ~ _
      exact (reconstruir_spec _).1
  · rw [if_neg hpos]
    have hle := List.length_filter_le
      (fun e => !(Cadenas.empiezaCon (normalizar_ruta e.ruta_completa) (normalizar_ruta prefijo)))
      (recorrer raiz)
    have hlen : ((recorrer raiz).filter (fun e => !(Cadenas.empiezaCon
        (normalizar_ruta e.ruta_completa) (normalizar_ruta prefijo)))).length =
        (recorrer raiz).length := by omega
    have heq := (List.filter_sublist (recorrer raiz)).eq_of_length hlen
    constructor
    · show (recorrer raiz).length -
        ((recorrer raiz).filter (fun e => !(Cadenas.empiezaCon (normalizar_ruta e.ruta_completa)
          (normalizar_ruta prefijo)))).length = _
      omega
    · show recorrer raiz ~ _
      rw [heq]

/-- `eliminar_por_ruta` traverses to the entries whose normalized path
differs from the normalized target, and is the no-op `(false, raiz)`
whenever no entry matches. -/
theorem eliminar_por_ruta_spec (raiz : BTreeNode) (ruta : String) :
    recorrer (eliminar_por_ruta raiz ruta).2 ~
      (recorrer raiz).filter
        (fun e => !(normalizar_ruta e.ruta_completa == normalizar_ruta ruta)) ∧
    ((∀ e ∈ recorrer raiz, ¬ normalizar_ruta e.ruta_completa = normalizar_ruta ruta) →
      eliminar_por_ruta raiz ruta = (false, raiz)) := by
  simp only [eliminar_por_ruta]
  by_cases hlen : ((recorrer raiz).filter
      (fun e => !(normalizar_ruta e.ruta_completa == normalizar_ruta ruta))).length =
      (recorrer raiz).length
  · rw [if_pos hlen]
    have heq := (List.filter_sublist (recorrer raiz)).eq_of_length hlen
    exact ⟨by show recorrer raiz ~ _; rw [heq], fun _ => rfl⟩
  · rw [if_neg hlen]
    constructor
    · show recorrer (reconstruir_desde_lista _) ~ _
      exact (reconstruir_spec _).1
    · intro hnone
      exfalso
      apply hlen
      rw [List.filter_eq_self.mpr]
      intro e he
      simp only [Bool.not_eq_true']
      exact beq_eq_false_iff_ne.mpr (hnone e he)

end IndiceGlobal

namespace Respaldos

theorem serializar_pila_aux_spec :
    ∀ (p el tmp : List String),
      serializar_pila_aux p el tmp = (el ++ p, p.reverse ++ tmp) := by
  intro p
  induction p with
  | nil => intro el tmp; simp [serializar_pila_aux]
  | cons e resto ih =>
    intro el tmp
    simp [serializar_pila_aux, EstructurasDatos.apilar, ih]

theorem restaurar_spec : ∀ (l p : List String), restaurar l p = l.reverse ++ p := by
  intro l
  induction l with
  | nil => intro p; simp [restaurar]
  | cons e resto ih =>
    intro p
    simp [restaurar, EstructurasDatos.apilar, ih]

theorem foldl_apilar :
    ∀ (l acc : List String),
      l.foldl (fun p e => EstructurasDatos.apilar p e) acc = l.reverse ++ acc := by
  intro l
  induction l with
  | nil => intro acc; simp
  | cons e resto ih =>
    intro acc
    simp [EstructurasDatos.apilar, ih]

/-- Serializing a history stack lists its elements top-first, restores the
stack intact, and deserializing that list rebuilds the stack exactly. -/
theorem pila_round_trip (pila : List String) :
    serializar_pila pila = (pila, pila) ∧
    deserializar_pila (serializar_pila pila).1 = pila := by
  have h1 := serializar_pila_aux_spec pila [] []
  have h2 : serializar_pila pila = (pila, pila) := by
    simp [serializar_pila, h1, restaurar_spec]
  refine ⟨h2, ?_⟩
  rw [h2]
  show List.foldl (fun p e => EstructurasDatos.apilar p e) [] pila.reverse = pila
  rw [foldl_apilar]
  simp

end Respaldos

/-- Claim C10: `desapilar`/`ver_tope` on an empty history stack return
`None` without error and leave the stack empty; on any non-empty stack
(`apilar pila valor`), `desapilar` returns the most recently pushed element
and decreases the length by one. -/
theorem c10_pila_vacia_segura :
    (EstructurasDatos.desapilar ([] : List String) = (none, []) ∧
      EstructurasDatos.ver_tope ([] : List String) = none) ∧
    ∀ (valor : String) (pila : List String),
      EstructurasDatos.desapilar (EstructurasDatos.apilar pila valor) = (some valor, pila) ∧
      (EstructurasDatos.desapilar (EstructurasDatos.apilar pila valor)).2.length + 1 =
        (EstructurasDatos.apilar pila valor).length := by
  refine ⟨⟨rfl, rfl⟩, fun valor pila => ⟨rfl, ?_⟩⟩
  simp [EstructurasDatos.apilar, EstructurasDatos.desapilar]

/-- Claim C8: the index entry size is the ceiling of the UTF-8 byte length
of the content divided by 1024 (so `b ≤ 1024·size` and
`1024·(size−1) < max 1 b`), is at least 1 whenever content is present
(including the empty string), and is 0 exactly when content is absent. -/
theorem c8_calcular_tamano_kb :
    IndiceGlobal.calcular_tamano_kb none = 0 ∧
    (∀ s : String,
      IndiceGlobal.calcular_tamano_kb (some s) = max 1 ((s.utf8ByteSize + 1023) / 1024) ∧
      1 ≤ IndiceGlobal.calcular_tamano_kb (some s) ∧
      s.utf8ByteSize ≤ 1024 * IndiceGlobal.calcular_tamano_kb (some s) ∧
      1024 * (IndiceGlobal.calcular_tamano_kb (some s) - 1) < max 1 s.utf8ByteSize) ∧
    (∀ c : Option String, IndiceGlobal.calcular_tamano_kb c = 0 ↔ c = none) := by
  refine ⟨rfl, fun s => ?_, fun c => ?_⟩
  · have hdm := Nat.div_add_mod (s.utf8ByteSize + 1023) 1024
    have hlt : (s.utf8ByteSize + 1023) % 1024 < 1024 := Nat.mod_lt _ (by omega)
    simp only [IndiceGlobal.calcular_tamano_kb, Nat.max_def]
    split_ifs <;> exact ⟨trivial, by omega⟩
  · cases c with
    | none => simp [IndiceGlobal.calcular_tamano_kb]
    | some s => simp [IndiceGlobal.calcular_tamano_kb]

/-- Claim C2: after every sequence of `agregar_archivo` / `eliminar_archivo`
operations on a directory's file BST (starting from the empty tree), the
in-order traversal lists file names in strictly ascending case-insensitive
order — hence no two files share a case-insensitive name at any point —
and `agregar_archivo` returns `False` exactly when the lowercased key is
already present. -/
theorem c2_bst_orden_y_duplicados (ops : List EntidadesFS.Operacion) :
    (((EntidadesFS.recorrer_archivos (EntidadesFS.aplicar_todas ops) "inorden").map
        (fun a => Cadenas.minusculas a.nombre)).Pairwise (· < ·)) ∧
    ∀ archivo : EntidadesFS.Archivo,
      ((EntidadesFS.insertar_archivo (EntidadesFS.aplicar_todas ops) archivo).1 = false ↔
        Cadenas.minusculas archivo.nombre ∈
          (EntidadesFS.recorrer_archivos (EntidadesFS.aplicar_todas ops) "inorden").map
            (fun a => Cadenas.minusculas a.nombre)) := by
  have hbst := EntidadesFS.bst_aplicar_todas ops
  rw [← EntidadesFS.claves_eq_inorden]
  exact ⟨EntidadesFS.bst_pairwise hbst,
    fun archivo => EntidadesFS.insertar_fst_false_iff hbst archivo⟩

/-- Claim C1 fails on the code: after inserting keys a, b, c, d, b (degree
2), the key b occurs twice in the tree — once in the internal root and
once in a leaf — because `_insertar_no_lleno` only merges equal keys in
its leaf branch; `buscar_exacta "b"` returns only the root's entry list
`[r2]` and misses the fifth inserted entry, which the traversal still
contains. -/
theorem c1_btree_clave_duplicada :
    IndiceGlobal.buscar_exacta IndiceGlobal.arbolDemo "b" = [⟨"b", "r2", 1, "", "", ""⟩] ∧
    IndiceGlobal.contarClave IndiceGlobal.arbolDemo "b" = 2 ∧
    (⟨"b", "r5", 1, "", "", ""⟩ : IndiceGlobal.ArchivoIndexEntry) ∉
      IndiceGlobal.buscar_exacta IndiceGlobal.arbolDemo "b" ∧
    (⟨"b", "r5", 1, "", "", ""⟩ : IndiceGlobal.ArchivoIndexEntry) ∈
      IndiceGlobal.recorrer IndiceGlobal.arbolDemo := by
  refine ⟨by decide, by decide, by decide, by decide⟩

/-- Claim C6: for every index state (every tree rebuilt from an entry
list) and every path prefix, `eliminar_por_prefijo` removes exactly the
entries whose canonicalized full path starts with the canonicalized
prefix (a plain string-prefix test), returns the number of entries so
removed, and keeps every entry whose path does not start with the
prefix. -/
theorem c6_eliminar_por_prefijo (l : List IndiceGlobal.ArchivoIndexEntry) (prefijo : String) :
    (IndiceGlobal.eliminar_por_prefijo (IndiceGlobal.reconstruir_desde_lista l) prefijo).1 =
      (l.filter (fun e => Cadenas.empiezaCon (IndiceGlobal.normalizar_ruta e.ruta_completa)
        (IndiceGlobal.normalizar_ruta prefijo))).length ∧
    IndiceGlobal.recorrer
        (IndiceGlobal.eliminar_por_prefijo (IndiceGlobal.reconstruir_desde_lista l) prefijo).2 ~
      l.filter (fun e => !(Cadenas.empiezaCon (IndiceGlobal.normalizar_ruta e.ruta_completa)
        (IndiceGlobal.normalizar_ruta prefijo))) ∧
    ∀ e ∈ l, Cadenas.empiezaCon (IndiceGlobal.normalizar_ruta e.ruta_completa)
        (IndiceGlobal.normalizar_ruta prefijo) = false →
      e ∈ IndiceGlobal.recorrer
        (IndiceGlobal.eliminar_por_prefijo (IndiceGlobal.reconstruir_desde_lista l) prefijo).2 := by
  have hA := IndiceGlobal.eliminar_por_prefijo_spec (IndiceGlobal.reconstruir_desde_lista l) prefijo
  have hR := (IndiceGlobal.reconstruir_spec l).1
  have hperm2 : IndiceGlobal.recorrer
      (IndiceGlobal.eliminar_por_prefijo (IndiceGlobal.reconstruir_desde_lista l) prefijo).2 ~
      l.filter (fun e => !(Cadenas.empiezaCon (IndiceGlobal.normalizar_ruta e.ruta_completa)
        (IndiceGlobal.normalizar_ruta prefijo))) :=
    hA.2.trans (hR.filter _)
  refine ⟨?_, hperm2, ?_⟩
  · rw [hA.1, (hR.filter _).length_eq]
  · intro e he hpe
    refine hperm2.mem_iff.mpr (List.mem_filter.mpr ⟨he, ?_⟩)
    rw [hpe]
    rfl

/-- Claim C6 instantiated: deleting by the prefix `c:/docs` from the index
holding the two demo entries keeps the unrelated entry present. -/
theorem c6_eliminar_por_prefijo_witness :
    IndiceGlobal.entradaDemo2 ∈ IndiceGlobal.recorrer
      (IndiceGlobal.eliminar_por_prefijo
        (IndiceGlobal.reconstruir_desde_lista
          [IndiceGlobal.entradaDemo1, IndiceGlobal.entradaDemo2]) "c:/docs").2 :=
  (c6_eliminar_por_prefijo [IndiceGlobal.entradaDemo1, IndiceGlobal.entradaDemo2] "c:/docs").2.2
    IndiceGlobal.entradaDemo2 (by decide) (by decide)

/-- Claim C7: for every index state (every tree rebuilt from an entry
list) and every path: if no entry's canonicalized full path equals the
canonicalized target, `eliminar_por_ruta` is a silent no-op returning
`false` with the index unchanged; if exactly one entry matches, it
returns `true` and removes exactly that entry; and deleting the same path
twice leaves the same index as deleting it once. -/
theorem c7_eliminar_por_ruta (l : List IndiceGlobal.ArchivoIndexEntry) (ruta : String) :
    ((∀ e ∈ l, ¬ IndiceGlobal.normalizar_ruta e.ruta_completa =
        IndiceGlobal.normalizar_ruta ruta) →
      IndiceGlobal.eliminar_por_ruta (IndiceGlobal.reconstruir_desde_lista l) ruta =
        (false, IndiceGlobal.reconstruir_desde_lista l)) ∧
    (∀ e0, l.filter (fun e => IndiceGlobal.normalizar_ruta e.ruta_completa ==
        IndiceGlobal.normalizar_ruta ruta) = [e0] →
      (IndiceGlobal.eliminar_por_ruta (IndiceGlobal.reconstruir_desde_lista l) ruta).1 = true ∧
      e0 :: IndiceGlobal.recorrer
        (IndiceGlobal.eliminar_por_ruta (IndiceGlobal.reconstruir_desde_lista l) ruta).2 ~ l) ∧
    (IndiceGlobal.eliminar_por_ruta
        (IndiceGlobal.eliminar_por_ruta (IndiceGlobal.reconstruir_desde_lista l) ruta).2 ruta).2 =
      (IndiceGlobal.eliminar_por_ruta (IndiceGlobal.reconstruir_desde_lista l) ruta).2 := by
  have hB := IndiceGlobal.eliminar_por_ruta_spec (IndiceGlobal.reconstruir_desde_lista l) ruta
  have hR := (IndiceGlobal.reconstruir_spec l).1
  refine ⟨?_, ?_, ?_⟩
  · intro hnone
    exact hB.2 (fun e he => hnone e (hR.mem_iff.mp he))
  · intro e0 hfil
    have hsum := IndiceGlobal.length_filter_add2
      (fun e => IndiceGlobal.normalizar_ruta e.ruta_completa ==
        IndiceGlobal.normalizar_ruta ruta)
      (fun e => !(IndiceGlobal.normalizar_ruta e.ruta_completa ==
        IndiceGlobal.normalizar_ruta ruta))
      (fun x => rfl) (IndiceGlobal.recorrer (IndiceGlobal.reconstruir_desde_lista l))
    have hmatchlen : ((IndiceGlobal.recorrer (IndiceGlobal.reconstruir_desde_lista l)).filter
        (fun e => IndiceGlobal.normalizar_ruta e.ruta_completa ==
          IndiceGlobal.normalizar_ruta ruta)).length = 1 := by
      rw [(hR.filter _).length_eq, hfil]
      rfl
    have hlperm : (IndiceGlobal.recorrer (IndiceGlobal.reconstruir_desde_lista l)).length =
        l.length := hR.length_eq
    constructor
    · simp only [IndiceGlobal.eliminar_por_ruta]
      rw [if_neg (by omega)]
    · have hperm2 : IndiceGlobal.recorrer
          (IndiceGlobal.eliminar_por_ruta (IndiceGlobal.reconstruir_desde_lista l) ruta).2 ~
          l.filter (fun e => !(IndiceGlobal.normalizar_ruta e.ruta_completa ==
            IndiceGlobal.normalizar_ruta ruta)) :=
        hB.1.trans (hR.filter _)
      refine ((hperm2.cons e0).trans ?_)
      have := List.filter_append_perm
        (fun e => IndiceGlobal.normalizar_ruta e.ruta_completa ==
          IndiceGlobal.normalizar_ruta ruta) l
      rw [hfil] at this
      exact this
  · have hall : ∀ e ∈ IndiceGlobal.recorrer
        (IndiceGlobal.eliminar_por_ruta (IndiceGlobal.reconstruir_desde_lista l) ruta).2,
        ¬ IndiceGlobal.normalizar_ruta e.ruta_completa = IndiceGlobal.normalizar_ruta ruta := by
      intro e he
      have hmem := hB.1.mem_iff.mp he
      have := (List.mem_filter.mp hmem).2
      simpa using this
    have := (IndiceGlobal.eliminar_por_ruta_spec
      (IndiceGlobal.eliminar_por_ruta (IndiceGlobal.reconstruir_desde_lista l) ruta).2 ruta).2 hall
    rw [this]

/-- Claim C7 instantiated: deleting `c:/docs/x.txt` from an index without
it is the identity no-op answering `false`; from an index with exactly
that entry, the call answers `true` and removes exactly it. -/
theorem c7_eliminar_por_ruta_witness :
    IndiceGlobal.eliminar_por_ruta
        (IndiceGlobal.reconstruir_desde_lista [IndiceGlobal.entradaDemo2]) "c:/docs/x.txt" =
      (false, IndiceGlobal.reconstruir_desde_lista [IndiceGlobal.entradaDemo2]) ∧
    (IndiceGlobal.eliminar_por_ruta
        (IndiceGlobal.reconstruir_desde_lista
          [IndiceGlobal.entradaDemo1, IndiceGlobal.entradaDemo2]) "c:/docs/x.txt").1 = true ∧
    IndiceGlobal.entradaDemo1 :: IndiceGlobal.recorrer (IndiceGlobal.eliminar_por_ruta
        (IndiceGlobal.reconstruir_desde_lista
          [IndiceGlobal.entradaDemo1, IndiceGlobal.entradaDemo2]) "c:/docs/x.txt").2 ~
      [IndiceGlobal.entradaDemo1, IndiceGlobal.entradaDemo2] :=
  ⟨(c7_eliminar_por_ruta [IndiceGlobal.entradaDemo2] "c:/docs/x.txt").1 (by decide),
   ((c7_eliminar_por_ruta [IndiceGlobal.entradaDemo1, IndiceGlobal.entradaDemo2]
      "c:/docs/x.txt").2.1 IndiceGlobal.entradaDemo1 (by decide)).1,
   ((c7_eliminar_por_ruta [IndiceGlobal.entradaDemo1, IndiceGlobal.entradaDemo2]
      "c:/docs/x.txt").2.1 IndiceGlobal.entradaDemo1 (by decide)).2⟩

/-- Claim C3 fails on the code: the history-stack codec round-trips
exactly (serialization lists the elements top-first, restores the stack,
and deserialization rebuilds it in the original LIFO order), but
deserializing the serialization of a directory does not reproduce its
`fecha_modificacion`: `_deserializar_carpeta` first copies the stored
timestamps and then calls `agregar_carpeta`/`agregar_archivo`, whose
`actualizar_modificacion` overwrites the restored timestamp with the
current clock on every directory that has at least one child. Name,
creation date, subdirectory list and the file BST are reproduced. -/
theorem c3_respaldo_ida_y_vuelta :
    (∀ pila : List String,
      Respaldos.serializar_pila pila = (pila, pila) ∧
      Respaldos.deserializar_pila (Respaldos.serializar_pila pila).1 = pila) ∧
    (Respaldos.deserializar_carpeta Respaldos.nowDemo
        (Respaldos.serializar_carpeta Respaldos.carpetaDemo)).nombre =
      Respaldos.carpetaDemo.nombre ∧
    (Respaldos.deserializar_carpeta Respaldos.nowDemo
        (Respaldos.serializar_carpeta Respaldos.carpetaDemo)).fecha_creacion =
      Respaldos.carpetaDemo.fecha_creacion ∧
    (Respaldos.deserializar_carpeta Respaldos.nowDemo
        (Respaldos.serializar_carpeta Respaldos.carpetaDemo)).subcarpetas =
      Respaldos.carpetaDemo.subcarpetas ∧
    (Respaldos.deserializar_carpeta Respaldos.nowDemo
        (Respaldos.serializar_carpeta Respaldos.carpetaDemo)).archivos_raiz =
      Respaldos.carpetaDemo.archivos_raiz ∧
    (Respaldos.deserializar_carpeta Respaldos.nowDemo
        (Respaldos.serializar_carpeta Respaldos.carpetaDemo)).fecha_modificacion =
      Respaldos.nowDemo ∧
    ¬ (Respaldos.deserializar_carpeta Respaldos.nowDemo
        (Respaldos.serializar_carpeta Respaldos.carpetaDemo)).fecha_modificacion =
      Respaldos.carpetaDemo.fecha_modificacion :=
  ⟨Respaldos.pila_round_trip, rfl, rfl, rfl, rfl, rfl, by decide⟩

/-- Claim C5: with a valid name, creating a subdirectory inside a
directory that already has a child (file or folder) of the same
case-insensitive name fails with a name-conflict error and changes
nothing; otherwise the new folder is appended to the children and the
parent's modification date is set to the current clock. -/
theorem c5_mkdir_agregar_subdirectorio (now : String) (contenido : List Comandos.ElemV)
    (fm nombre : String) (hval : Comandos.validar_nombre nombre = true) :
    ((∃ e ∈ contenido, Cadenas.minusculas (Comandos.ElemV.nombre e) =
        Cadenas.minusculas nombre) →
      ∃ ex, Comandos.crear_directorio_actual now contenido fm nombre =
        (.conflicto ex, contenido, fm)) ∧
    ((∀ e ∈ contenido, ¬ Cadenas.minusculas (Comandos.ElemV.nombre e) =
        Cadenas.minusculas nombre) →
      Comandos.crear_directorio_actual now contenido fm nombre =
        (.creado, contenido ++ [.carpetaV nombre now []], now)) := by
  constructor
  · intro hex
    have hs : (contenido.find? (fun e => Cadenas.minusculas e.nombre ==
        Cadenas.minusculas nombre)).isSome = true := by
      rw [List.find?_isSome]
      rcases hex with ⟨e, he, heq⟩
      exact ⟨e, he, by simp [heq]⟩
    rcases Option.isSome_iff_exists.mp hs with ⟨e, hfe⟩
    exact ⟨e.nombre, by simp [Comandos.crear_directorio_actual, hval, hfe]⟩
  · intro hall
    have hfn : contenido.find? (fun e => Cadenas.minusculas e.nombre ==
        Cadenas.minusculas nombre) = none := by
      rw [List.find?_eq_none]
      intro e he
      simpa using hall e he
    simp [Comandos.crear_directorio_actual, hval, hfn, Comandos.agregar_elemento]

/-- Claim C5 instantiated: a folder named `NOTAS.txt` conflicts with the
existing file `Notas.txt`; the fresh name `docs` is appended with the
parent's date updated. -/
theorem c5_mkdir_agregar_subdirectorio_witness :
    (∃ ex, Comandos.crear_directorio_actual "2024-05-05 09:00:00"
        [Comandos.ElemV.archivoV "Notas.txt"] "2020-01-01 00:00:00" "NOTAS.txt" =
      (.conflicto ex, [Comandos.ElemV.archivoV "Notas.txt"], "2020-01-01 00:00:00")) ∧
    Comandos.crear_directorio_actual "2024-05-05 09:00:00"
        [Comandos.ElemV.archivoV "Notas.txt"] "2020-01-01 00:00:00" "docs" =
      (.creado, [Comandos.ElemV.archivoV "Notas.txt",
        .carpetaV "docs" "2024-05-05 09:00:00" []], "2024-05-05 09:00:00") :=
  ⟨(c5_mkdir_agregar_subdirectorio "2024-05-05 09:00:00"
      [Comandos.ElemV.archivoV "Notas.txt"] "2020-01-01 00:00:00" "NOTAS.txt"
      (by decide)).1 (by decide),
   (c5_mkdir_agregar_subdirectorio "2024-05-05 09:00:00"
      [Comandos.ElemV.archivoV "Notas.txt"] "2020-01-01 00:00:00" "docs"
      (by decide)).2 (by decide)⟩

/-- Claim C9: from a unit root the parent step is a fixed point: the lone
`cd ..` answers that the root is already current and changes neither the
directory nor the path; and a `..` component reached while the walk
stands at the root is skipped without error, leaving the remaining
components to resolve from the root itself. -/
theorem c9_raiz_punto_fijo (unidad_raiz ruta : String) (raiz : Comandos.ElemV)
    (partes : List String) :
    Comandos.retroceder_directorio unidad_raiz ([raiz], ruta) =
      ("Ya estas en el directorio raiz", ([raiz], ruta)) ∧
    Comandos.procesarPartes unidad_raiz ([raiz], ruta) (".." :: partes) =
      Comandos.procesarPartes unidad_raiz ([raiz], ruta) partes ∧
    Comandos.procesarPartes unidad_raiz ([raiz], ruta) [".."] = .ok ([raiz], ruta) := by
  refine ⟨rfl, ?_, ?_⟩ <;> simp [Comandos.procesarPartes, Comandos.pasoParte]

/-- Claim C4's counterexample: a respaldo document whose stacks parse but
whose unit list is malformed makes the restore fail, yet the failed
restore leaves the history stack replaced with the document's one — the
store is not left as it was before the attempt. -/
theorem c4_respaldo_contraejemplo :
    (Sistema.cargar_ultimo_respaldo "2024-05-05 09:00:00" Sistema.sisDemo
      (some Sistema.docMalo)).1 = false ∧
    (Sistema.cargar_ultimo_respaldo "2024-05-05 09:00:00" Sistema.sisDemo
      (some Sistema.docMalo)).2.historial_operaciones = [Sistema.J.str "h1"] ∧
    Sistema.sisDemo.historial_operaciones = [] :=
  ⟨rfl, rfl, rfl⟩

/-- Claim C4 amended: only a restore that fails before the first store
assignment — a missing or unparseable document, a non-object document, or
a `historial_operaciones` value that is not iterable (`None`, a boolean
or a number; lists, strings and objects all iterate) — leaves the store
exactly as it was; later failures keep the replacements already made. -/
theorem c4_respaldo_fallido_temprano (now : String) (sis : Sistema.SistemaE)
    (doc : Option Sistema.J) (h : Sistema.malformadoTemprano doc = true) :
    Sistema.cargar_ultimo_respaldo now sis doc = (false, sis) := by
  cases doc with
  | none => rfl
  | some j =>
    cases j with
    | null => rfl
    | bool b => rfl
    | num n => rfl
    | str s => rfl
    | arr l => rfl
    | obj campos =>
      simp only [Sistema.malformadoTemprano] at h
      cases hv : Sistema.campoJ campos "historial_operaciones" with
      | none => rw [hv] at h; simp at h
      | some v =>
        rw [hv] at h
        show Sistema.cargar_ultimo_respaldo now sis (some (.obj campos)) = (false, sis)
        simp only [Sistema.cargar_ultimo_respaldo, Sistema.campoLista, hv]
        cases v with
        | arr l => simp at h
        | str s => simp at h
        | obj l => simp at h
        | null => rfl
        | bool b => rfl
        | num n => rfl

/-- Claim C4 amended, instantiated: a document whose stack field is a
number fails before any mutation and leaves the fresh store unchanged. -/
theorem c4_respaldo_fallido_temprano_witness :
    Sistema.cargar_ultimo_respaldo "2024-05-05 09:00:00" Sistema.sisDemo
      (some (Sistema.J.obj [("historial_operaciones", Sistema.J.num 3)])) =
      (false, Sistema.sisDemo) :=
  c4_respaldo_fallido_temprano "2024-05-05 09:00:00" Sistema.sisDemo
    (some (Sistema.J.obj [("historial_operaciones", Sistema.J.num 3)])) (by decide)
